import Mathlib

/-! # liquid-dsp binary synchroniser (`bsync`): embedding and properties

Shallow embedding of `src/framing/src/bsync.c` as instantiated by
`src/framing/src/pnsync_cccf.c`.

* The preprocessor flags `TO_COMPLEX`, `TC_COMPLEX`, `TI_COMPLEX` are the three
  booleans of `Inst`; every `#ifdef` of the source is an `if` on them.
* Samples are pairs of rationals (finite values); the `float` arithmetic of the
  source is modelled exactly: the counts are integers of magnitude at most `2n`,
  within `int` and exactly representable for every practical length, and the one
  division is by `n`.  A division by `n = 0` yields no finite number and is
  modelled by `none`.
* A call returns `Except Fault _`: `Fault.terminated` is the `exit` of the
  source, `Fault.undefined` a read outside `_v` or of a rail never created.
  Failure of `malloc` is not modelled.
* A rail that the instantiation never creates (`sync_q` without `TC_COMPLEX`,
  `sym_q` without `TI_COMPLEX`) is `none`.
* `bsequence` and `msequence` are collaborators whose code is not part of the
  files at hand; they are modelled from the specification.
-/

namespace Bsync

/-! ## Samples -/

/-- Sample of type `float complex` in exact arithmetic; a `float` is a sample
whose imaginary part is never read. -/
structure Cplx where
  re : ℚ
  im : ℚ
deriving DecidableEq

/-- Squared magnitude of a sample. -/
def Cplx.normSq (z : Cplx) : ℚ := z.re * z.re + z.im * z.im

/-- Instantiation of the generic source: which of `TO`, `TC`, `TI` are complex. -/
structure Inst where
  TO_COMPLEX : Bool
  TC_COMPLEX : Bool
  TI_COMPLEX : Bool
deriving DecidableEq

/-- Instantiation of `pnsync_cccf.c`: `TO`, `TC`, `TI` all `float complex`. -/
def cccf : Inst := ⟨true, true, true⟩

/-- Instantiation with no flag defined: `TO`, `TC`, `TI` all `float`. -/
def rrrf : Inst := ⟨false, false, false⟩

/-- Instantiation with complex output, real pattern, complex symbol. -/
def crcf : Inst := ⟨true, false, true⟩

/-- Ways in which a call does not return normally. -/
inductive Fault
  | terminated (status : Int)
  | undefined
deriving DecidableEq

/-! ## Bit sequences (collaborator) -/

/-- Modelled from the spec: the `bsequence` type, a fixed-length ordered
sequence of single-bit values (section 2); here the oldest bit comes first. -/
abbrev bsequence := List Bool

/-- Modelled from the spec: `bsequence_create`, a buffer of the given length in
the all-zero default state (sections 3 and 4.4). -/
def bsequence_create (n : Nat) : bsequence := List.replicate n false

/-- Modelled from the spec: `bsequence_push`, shift the bit in and evict the
oldest bit, a FIFO of fixed length (section 4.4, step 2). -/
def bsequence_push (bs : bsequence) (b : Bool) : bsequence := (bs ++ [b]).drop 1

/-- Modelled from the spec: `bsequence_correlate`, the primitive
`corr(A,B) = sum over i of (+1 if A_i == B_i else -1)` (section 4.4, step 3). -/
def bsequence_correlate (a b : bsequence) : Int :=
  (List.zipWith (fun x y => if x = y then (1 : Int) else -1) a b).sum

/-! ## Sequence generator (collaborator) -/

/-- The LFSR behind `msequence`, whose polynomial the specification leaves open:
the state after a reset, for each order, and the step producing one bit. -/
structure Generator where
  initial : Nat → Nat
  next_bit : Nat → Nat → Bool × Nat

/-- Modelled from the spec: the `msequence` object, a generator of order `m`
with its current LFSR state (section 4.1). -/
structure msequence where
  m : Nat
  state : Nat
deriving DecidableEq

/-- Modelled from the spec: `msequence_create(order m)` (section 4.1). -/
def msequence_create (L : Generator) (m : Nat) : msequence := ⟨m, L.initial m⟩

/-- Modelled from the spec: `msequence_reset`, back to the defined initial LFSR
state (section 4.1). -/
def msequence_reset (L : Generator) (ms : msequence) : msequence :=
  ⟨ms.m, L.initial ms.m⟩

/-- Modelled from the spec: `msequence_get_length`, which returns `2^m - 1`
(section 4.1). -/
def msequence_get_length (ms : msequence) : Nat := 2 ^ ms.m - 1

/-- Modelled from the spec: `msequence_advance`, the `next_bit()` of section
4.1: advance the LFSR one step and return the output bit. -/
def msequence_advance (L : Generator) (ms : msequence) : Bool × msequence :=
  ((L.next_bit ms.m ms.state).1, ⟨ms.m, (L.next_bit ms.m ms.state).2⟩)

/-- Drain `k` bits of the generator into the buffer, one push per bit. -/
def bsequence_drain (L : Generator) : Nat → bsequence → msequence → bsequence × msequence
  | 0, bs, ms => (bs, ms)
  | k + 1, bs, ms =>
    bsequence_drain L k (bsequence_push bs (msequence_advance L ms).1) (msequence_advance L ms).2

/-- Modelled from the spec: `bsequence_init_msequence`, drain `length()` bits of
the generator into the rail (section 4.3, generator path). -/
def bsequence_init_msequence (L : Generator) (bs : bsequence) (ms : msequence) :
    bsequence × msequence :=
  bsequence_drain L (msequence_get_length ms) bs ms

/-- The eleven generator codes `LIQUID_MSEQUENCE_N3` .. `LIQUID_MSEQUENCE_N4095`,
constants of a header that is not at hand. -/
structure Catalog where
  LIQUID_MSEQUENCE_N3 : Nat
  LIQUID_MSEQUENCE_N7 : Nat
  LIQUID_MSEQUENCE_N15 : Nat
  LIQUID_MSEQUENCE_N31 : Nat
  LIQUID_MSEQUENCE_N63 : Nat
  LIQUID_MSEQUENCE_N127 : Nat
  LIQUID_MSEQUENCE_N255 : Nat
  LIQUID_MSEQUENCE_N511 : Nat
  LIQUID_MSEQUENCE_N1023 : Nat
  LIQUID_MSEQUENCE_N2047 : Nat
  LIQUID_MSEQUENCE_N4095 : Nat

/-- The catalog codes in the order of the `case` labels. -/
def Catalog.codes (K : Catalog) : List Nat :=
  [K.LIQUID_MSEQUENCE_N3, K.LIQUID_MSEQUENCE_N7, K.LIQUID_MSEQUENCE_N15,
   K.LIQUID_MSEQUENCE_N31, K.LIQUID_MSEQUENCE_N63, K.LIQUID_MSEQUENCE_N127,
   K.LIQUID_MSEQUENCE_N255, K.LIQUID_MSEQUENCE_N511, K.LIQUID_MSEQUENCE_N1023,
   K.LIQUID_MSEQUENCE_N2047, K.LIQUID_MSEQUENCE_N4095]

/-! ## The synchroniser object -/

/-- The `struct BSYNC(_s)`.  `rxy` is `none` until `correlate` first assigns it. -/
structure bsync_s where
  n : Nat
  sync_i : bsequence
  sync_q : Option bsequence
  sym_i : bsequence
  sym_q : Option bsequence
  rxy : Option Cplx
deriving DecidableEq

/-- Hard decision of the source, `crealf(x)>0` and `cimagf(x)>0`. -/
def bit_re (x : Cplx) : Bool := decide (x.re > 0)

/-- Hard decision on the imaginary part, `cimagf(x)>0`. -/
def bit_im (x : Cplx) : Bool := decide (x.im > 0)

/-- The pattern loop of `BSYNC(_create)` (lines 36-42): `k` iterations from
index `i`, each reading `_v[i]`; a read past the end of `_v` is undefined. -/
def bsync_create_loop (cfg : Inst) (v : List Cplx) :
    Nat → Nat → bsequence → Option bsequence → Except Fault (bsequence × Option bsequence)
  | _, 0, si, sq => .ok (si, sq)
  | i, k + 1, si, sq =>
    match v[i]? with
    | none => .error Fault.undefined
    | some x =>
      if cfg.TC_COMPLEX then
        match sq with
        | none => .error Fault.undefined
        | some q =>
          bsync_create_loop cfg v (i + 1) k (bsequence_push si (bit_re x))
            (some (bsequence_push q (bit_im x)))
      else
        bsync_create_loop cfg v (i + 1) k (bsequence_push si (bit_re x)) sq

/-- The function `BSYNC(_create)(_n, _v)` (lines 21-45). -/
def bsync_create (cfg : Inst) (n : Nat) (v : List Cplx) : Except Fault bsync_s :=
  match bsync_create_loop cfg v 0 n (bsequence_create n)
      (if cfg.TC_COMPLEX then some (bsequence_create n) else none) with
  | .error e => .error e
  | .ok (si, sq) =>
    .ok { n := n, sync_i := si, sync_q := sq,
          sym_i := bsequence_create n,
          sym_q := if cfg.TI_COMPLEX then some (bsequence_create n) else none,
          rxy := none }

/-- The `switch` of `BSYNC(_create_msequence)` (lines 50-65): the order `m` of
a catalog code, `none` for the `default` label. -/
def msequence_switch (K : Catalog) (g : Nat) : Option Nat :=
  if g = K.LIQUID_MSEQUENCE_N3 then some 2
  else if g = K.LIQUID_MSEQUENCE_N7 then some 3
  else if g = K.LIQUID_MSEQUENCE_N15 then some 4
  else if g = K.LIQUID_MSEQUENCE_N31 then some 5
  else if g = K.LIQUID_MSEQUENCE_N63 then some 6
  else if g = K.LIQUID_MSEQUENCE_N127 then some 7
  else if g = K.LIQUID_MSEQUENCE_N255 then some 8
  else if g = K.LIQUID_MSEQUENCE_N511 then some 9
  else if g = K.LIQUID_MSEQUENCE_N1023 then some 10
  else if g = K.LIQUID_MSEQUENCE_N2047 then some 11
  else if g = K.LIQUID_MSEQUENCE_N4095 then some 12
  else none

/-- A `switch` over a list of labels numbered from `m`, first match wins; proof
device for reasoning about `msequence_switch` label by label. -/
def switch_labels : List Nat → Nat → Nat → Option Nat
  | [], _, _ => none
  | c :: cs, m, g => if g = c then some m else switch_labels cs (m + 1) g

/-- Calls that `BSYNC(_create_msequence)` makes, in program order. -/
inductive Call
  | printf_unsupported (g : Nat)
  | exit (status : Int)
  | msequence_create (m : Nat)
  | malloc
  | msequence_get_length
  | bsequence_create (n : Nat)
  | msequence_reset
  | bsequence_init_msequence
  | msequence_destroy
deriving DecidableEq

/-- The calls of lines 66-88 for order `m` and length `n`. -/
def create_msequence_calls (cfg : Inst) (m n : Nat) : List Call :=
  [Call.msequence_create m, Call.malloc, Call.msequence_get_length, Call.bsequence_create n]
  ++ (if cfg.TC_COMPLEX then [Call.bsequence_create n] else [])
  ++ [Call.bsequence_create n]
  ++ (if cfg.TI_COMPLEX then [Call.bsequence_create n] else [])
  ++ [Call.msequence_reset, Call.bsequence_init_msequence]
  ++ (if cfg.TC_COMPLEX then [Call.msequence_reset, Call.bsequence_init_msequence] else [])
  ++ [Call.msequence_destroy]

/-- The function `BSYNC(_create_msequence)(_g)` (lines 47-91): the calls it
makes and its result. -/
def bsync_create_msequence (cfg : Inst) (K : Catalog) (L : Generator) (g : Nat) :
    List Call × Except Fault bsync_s :=
  match msequence_switch K g with
  | none => ([Call.printf_unsupported g, Call.exit 0], .error (Fault.terminated 0))
  | some m =>
    let ms := msequence_create L m
    let n := msequence_get_length ms
    let ri := bsequence_init_msequence L (bsequence_create n) (msequence_reset L ms)
    (create_msequence_calls cfg m n,
     .ok { n := n,
           sync_i := ri.1,
           sync_q :=
             if cfg.TC_COMPLEX then
               some (bsequence_init_msequence L (bsequence_create n) (msequence_reset L ri.2)).1
             else none,
           sym_i := bsequence_create n,
           sym_q := if cfg.TI_COMPLEX then some (bsequence_create n) else none,
           rxy := none })

/-- Lines 114-118 of `BSYNC(_correlate)`: push the symbol into the buffers. -/
def bsync_push_symbol (cfg : Inst) (fs : bsync_s) (sym : Cplx) : Except Fault bsync_s :=
  if cfg.TI_COMPLEX then
    match fs.sym_q with
    | none => .error Fault.undefined
    | some q =>
      .ok { fs with sym_i := bsequence_push fs.sym_i (bit_re sym),
                    sym_q := some (bsequence_push q (bit_im sym)) }
  else
    .ok { fs with sym_i := bsequence_push fs.sym_i (bit_re sym) }

/-- Conversion of a complex value to `TO` on assignment: a real `TO` keeps the
real part only. -/
def to_TO (cfg : Inst) (z : Cplx) : Cplx :=
  if cfg.TO_COMPLEX then z else ⟨z.re, 0⟩

/-- Lines 120-134 of `BSYNC(_correlate)`: the value assigned to `rxy`. -/
def bsync_dotprod (cfg : Inst) (fs : bsync_s) : Except Fault Cplx :=
  if cfg.TC_COMPLEX && cfg.TO_COMPLEX then
    match fs.sync_q, fs.sym_q with
    | some sync_q, some sym_q =>
      .ok ⟨(bsequence_correlate fs.sync_i fs.sym_i - bsequence_correlate sync_q sym_q : Int),
           (bsequence_correlate fs.sync_i sym_q + bsequence_correlate sync_q fs.sym_i : Int)⟩
    | _, _ => .error Fault.undefined
  else if cfg.TC_COMPLEX then
    match fs.sym_q with
    | some sym_q =>
      .ok (to_TO cfg ⟨(bsequence_correlate fs.sync_i fs.sym_i : Int),
                      (bsequence_correlate fs.sync_i sym_q : Int)⟩)
    | none => .error Fault.undefined
  else
    .ok ⟨(bsequence_correlate fs.sync_i fs.sym_i : Int), 0⟩

/-- Line 136, `rxy / (float)(n)`: no finite value when `n = 0`. -/
def div_n (z : Cplx) (n : Nat) : Option Cplx :=
  if n = 0 then none else some ⟨z.re / n, z.im / n⟩

/-- The function `BSYNC(_correlate)(_fs, _sym, _y)` (lines 112-137): the new
state and the value stored through `_y`. -/
def bsync_correlate (cfg : Inst) (fs : bsync_s) (sym : Cplx) :
    Except Fault (bsync_s × Option Cplx) :=
  match bsync_push_symbol cfg fs sym with
  | .error e => .error e
  | .ok fs1 =>
    match bsync_dotprod cfg fs1 with
    | .error e => .error e
    | .ok rxy => .ok ({ fs1 with rxy := some rxy }, div_n rxy fs1.n)

/-- Successive calls of `correlate`, one per symbol, as a caller makes them:
the final state and the values returned, in call order. -/
def bsync_correlate_all (cfg : Inst) :
    bsync_s → List Cplx → Except Fault (bsync_s × List (Option Cplx))
  | fs, [] => .ok (fs, [])
  | fs, s :: rest =>
    match bsync_correlate cfg fs s with
    | .error e => .error e
    | .ok (fs1, y) =>
      match bsync_correlate_all cfg fs1 rest with
      | .error e => .error e
      | .ok (fs2, ys) => .ok (fs2, y :: ys)

/-- Rails that the instantiation uses are present: `sync_q` under
`TC_COMPLEX`, `sym_q` under `TI_COMPLEX`. -/
def bsync_s.present (cfg : Inst) (fs : bsync_s) : Prop :=
  (cfg.TC_COMPLEX = true → ∃ q, fs.sync_q = some q) ∧
  (cfg.TI_COMPLEX = true → ∃ q, fs.sym_q = some q)

/-- Every rail that is present holds exactly `n` bits. -/
def bsync_s.sized (fs : bsync_s) : Prop :=
  fs.sync_i.length = fs.n ∧ fs.sym_i.length = fs.n ∧
  (∀ q, fs.sync_q = some q → q.length = fs.n) ∧
  (∀ q, fs.sym_q = some q → q.length = fs.n)

/-- Instantiations in which a complex pattern comes with a complex symbol, so
that every rail read by `correlate` is one that `create` made. -/
def Inst.legal (cfg : Inst) : Prop :=
  cfg.TC_COMPLEX = true → cfg.TI_COMPLEX = true

/-- The rails after the push of lines 114-118, when every rail in use is present. -/
def bsync_s.pushed (cfg : Inst) (fs : bsync_s) (sym : Cplx) : bsync_s :=
  { fs with
    sym_i := bsequence_push fs.sym_i (bit_re sym),
    sym_q := if cfg.TI_COMPLEX then fs.sym_q.map (fun q => bsequence_push q (bit_im sym))
             else fs.sym_q }

/-- A catalog for concrete evaluation: eleven distinct codes (generator
polynomials of orders 2 to 12 in hexadecimal). -/
def sample_catalog : Catalog :=
  ⟨0x0007, 0x000B, 0x0013, 0x0025, 0x0043, 0x0089, 0x012D, 0x0211, 0x0409, 0x0805, 0x1053⟩

/-- A generator for concrete evaluation: the state is a counter started at 1
and the output bit is its parity. -/
def sample_generator : Generator :=
  ⟨fun _ => 1, fun _ s => (decide (s % 2 = 1), s + 1)⟩

/-- A complex-complex state of length 1: reference rails `[1]`, received rails `[0]`. -/
def state_cccf_one : bsync_s := ⟨1, [true], some [true], [false], some [false], none⟩

/-- A real-real state of length 2: reference rail `[1,0]`, received rail `[0,1]`. -/
def state_rrrf_two : bsync_s := ⟨2, [true, false], none, [false, true], none, none⟩

/-- Product with the imaginary unit: `x + iy` becomes `-y + ix`. -/
def Cplx.mulI (z : Cplx) : Cplx := ⟨-z.im, z.re⟩

/-- Negation of a sample. -/
def Cplx.neg (z : Cplx) : Cplx := ⟨-z.re, -z.im⟩

/-- The function `BSYNC(_destroy)(_fs)` (lines 93-105): every rail of the
instantiation is destroyed and the object freed; nothing is returned. -/
def bsync_destroy (cfg : Inst) (fs : bsync_s) : Except Fault Unit :=
  if cfg.TC_COMPLEX then
    match fs.sync_q with
    | none => .error Fault.undefined
    | some _ =>
      if cfg.TI_COMPLEX then
        match fs.sym_q with
        | none => .error Fault.undefined
        | some _ => .ok ()
      else .ok ()
  else
    if cfg.TI_COMPLEX then
      match fs.sym_q with
      | none => .error Fault.undefined
      | some _ => .ok ()
    else .ok ()

/-- The function `BSYNC(_print)(_fs)` (lines 107-110): its body is empty, the
object is left as it is. -/
def bsync_print (fs : bsync_s) : bsync_s := fs

/-- The operations that `bsync.c` defines on an existing correlator. -/
inductive bsync_op
  | destroy
  | print
  | correlate (sym : Cplx)

/-- Effect of one operation on the object: `none` when the object no longer
exists afterwards. -/
def bsync_apply (cfg : Inst) (fs : bsync_s) : bsync_op → Except Fault (Option bsync_s)
  | bsync_op.destroy =>
    match bsync_destroy cfg fs with
    | .error e => .error e
    | .ok _ => .ok none
  | bsync_op.print => .ok (some (bsync_print fs))
  | bsync_op.correlate sym =>
    match bsync_correlate cfg fs sym with
    | .error e => .error e
    | .ok (fs1, _) => .ok (some fs1)

/-- The values returned by a run of `correlate` calls, without the final state. -/
def outputs (r : Except Fault (bsync_s × List (Option Cplx))) :
    Except Fault (List (Option Cplx)) :=
  match r with
  | .error e => .error e
  | .ok (_, ys) => .ok ys

/-- The rail that the generator path fills for order `m`: a reset generator of
that order drained into an all-zero buffer of its length. -/
def msequence_rail (L : Generator) (m : Nat) : bsequence :=
  (bsequence_init_msequence L
    (bsequence_create (msequence_get_length (msequence_create L m)))
    (msequence_reset L (msequence_create L m))).1

/-- Sample with the given integer real part and zero imaginary part. -/
def real_sample (x : Int) : Cplx := ⟨x, 0⟩

/-- The explicit pattern of the end-to-end scenario. -/
def scenario_pattern : List Cplx :=
  [real_sample 1, real_sample (-1), real_sample 1, real_sample 1,
   real_sample (-1), real_sample (-1), real_sample 1, real_sample (-1)]

/-- The second run of the scenario: the pattern with its second sample flipped. -/
def scenario_second : List Cplx :=
  [real_sample 1, real_sample 1, real_sample 1, real_sample 1,
   real_sample (-1), real_sample (-1), real_sample 1, real_sample (-1)]

/-! ## Bit sequences: window and correlation lemmas -/

theorem bsequence_push_length (bs : bsequence) (b : Bool) :
    (bsequence_push bs b).length = bs.length := by
  simp [bsequence_push]

theorem bsequence_create_length (n : Nat) : (bsequence_create n).length = n := by
  simp [bsequence_create]

theorem foldl_push_eq (bits : List Bool) :
    ∀ bs : bsequence, List.foldl bsequence_push bs bits = (bs ++ bits).drop bits.length := by
  induction bits with
  | nil => intro bs; simp
  | cons b rest ih =>
    intro bs
    rw [List.foldl_cons, ih]
    have h : bsequence_push bs b ++ rest = (bs ++ b :: rest).drop 1 := by
      cases bs <;> simp [bsequence_push]
    rw [h, List.drop_drop, List.length_cons, Nat.add_comm]

theorem foldl_push_length (bits : List Bool) (bs : bsequence) :
    (List.foldl bsequence_push bs bits).length = bs.length := by
  rw [foldl_push_eq]; simp

theorem foldl_push_full (bits : List Bool) (bs : bsequence) (h : bits.length = bs.length) :
    List.foldl bsequence_push bs bits = bits := by
  rw [foldl_push_eq, h, List.drop_left]

theorem bsequence_correlate_self (a : bsequence) :
    bsequence_correlate a a = a.length := by
  induction a with
  | nil => simp [bsequence_correlate]
  | cons x rest ih =>
    simp only [bsequence_correlate, List.zipWith_cons_cons, List.sum_cons, List.length_cons] at ih ⊢
    rw [ih]; simp; ring

theorem bsequence_correlate_bounds :
    ∀ (a b : bsequence) (n : Nat), a.length = n → b.length = n →
      -(n : Int) ≤ bsequence_correlate a b ∧ bsequence_correlate a b ≤ n := by
  intro a
  induction a with
  | nil => intro b n ha _; subst ha; simp [bsequence_correlate]
  | cons x rest ih =>
    intro b n ha hb
    cases b with
    | nil => subst ha; simp at hb
    | cons y restb =>
      subst ha
      simp only [List.length_cons, Nat.add_right_cancel_iff] at hb
      have h := ih restb rest.length rfl hb
      simp only [bsequence_correlate, List.zipWith_cons_cons, List.sum_cons,
        List.length_cons] at h ⊢
      split <;> constructor <;> push_cast <;> omega

theorem create_loop_real (cfg : Inst) (v : List Cplx) (hc : cfg.TC_COMPLEX = false) :
    ∀ (k i : Nat) (si : bsequence) (sq : Option bsequence), i + k ≤ v.length →
      bsync_create_loop cfg v i k si sq =
        .ok (List.foldl bsequence_push si (((v.drop i).take k).map bit_re), sq) := by
  intro k
  induction k with
  | zero => intro i si sq _; simp [bsync_create_loop]
  | succ k ih =>
    intro i si sq h
    have hi : i < v.length := by omega
    rw [bsync_create_loop, List.getElem?_eq_getElem hi]
    simp only [hc, Bool.false_eq_true, if_false]
    rw [ih (i + 1) _ _ (by omega), List.drop_eq_getElem_cons hi]
    simp only [List.take_succ_cons, List.map_cons, List.foldl_cons]

theorem create_loop_complex (cfg : Inst) (v : List Cplx) (hc : cfg.TC_COMPLEX = true) :
    ∀ (k i : Nat) (si q : bsequence), i + k ≤ v.length →
      bsync_create_loop cfg v i k si (some q) =
        .ok (List.foldl bsequence_push si (((v.drop i).take k).map bit_re),
             some (List.foldl bsequence_push q (((v.drop i).take k).map bit_im))) := by
  intro k
  induction k with
  | zero => intro i si q _; simp [bsync_create_loop]
  | succ k ih =>
    intro i si q h
    have hi : i < v.length := by omega
    rw [bsync_create_loop, List.getElem?_eq_getElem hi]
    simp only [hc, if_true]
    rw [ih (i + 1) _ _ (by omega), List.drop_eq_getElem_cons hi]
    simp only [List.take_succ_cons, List.map_cons, List.foldl_cons]

theorem bsync_create_eq (cfg : Inst) (n : Nat) (v : List Cplx) (h : n ≤ v.length) :
    bsync_create cfg n v =
      .ok { n := n,
            sync_i := (v.take n).map bit_re,
            sync_q := if cfg.TC_COMPLEX then some ((v.take n).map bit_im) else none,
            sym_i := bsequence_create n,
            sym_q := if cfg.TI_COMPLEX then some (bsequence_create n) else none,
            rxy := none } := by
  have hl (f : Cplx → Bool) : ((v.take n).map f).length = (bsequence_create n).length := by
    simp [bsequence_create, h]
  cases hc : cfg.TC_COMPLEX with
  | false =>
    simp only [bsync_create, hc, Bool.false_eq_true, if_false]
    rw [create_loop_real cfg v hc n 0 _ _ (by omega)]
    simp only [List.drop_zero]
    rw [foldl_push_full _ _ (hl bit_re)]
  | true =>
    simp only [bsync_create, hc, if_true]
    rw [create_loop_complex cfg v hc n 0 _ _ (by omega)]
    simp only [List.drop_zero]
    rw [foldl_push_full _ _ (hl bit_re), foldl_push_full _ _ (hl bit_im)]

/-! ## One call of `correlate` -/

theorem push_symbol_complex (cfg : Inst) (fs : bsync_s) (sym : Cplx) (q : bsequence)
    (hc : cfg.TI_COMPLEX = true) (hq : fs.sym_q = some q) :
    bsync_push_symbol cfg fs sym =
      .ok { fs with sym_i := bsequence_push fs.sym_i (bit_re sym),
                    sym_q := some (bsequence_push q (bit_im sym)) } := by
  simp [bsync_push_symbol, hc, hq]

theorem push_symbol_real (cfg : Inst) (fs : bsync_s) (sym : Cplx)
    (hc : cfg.TI_COMPLEX = false) :
    bsync_push_symbol cfg fs sym =
      .ok { fs with sym_i := bsequence_push fs.sym_i (bit_re sym) } := by
  simp [bsync_push_symbol, hc]

/-- C1: in the complex-complex instantiation of `pnsync_cccf.c`, for a
correlator of length `n > 0`, `correlate` first pushes the bit `re > 0` into
`sym_i` and the bit `im > 0` into `sym_q`, and then returns
`([corr(sync_i,sym_i) - corr(sync_q,sym_q)] + i [corr(sync_i,sym_q) + corr(sync_q,sym_i)]) / n`
computed on the rails after the push. -/
theorem correlate_cccf_formula (fs : bsync_s) (sym : Cplx)
    (sync_q sym_q si sq : bsequence) (hn : 0 < fs.n)
    (hsync : fs.sync_q = some sync_q) (hsym : fs.sym_q = some sym_q)
    (hsi : si = bsequence_push fs.sym_i (decide (sym.re > 0)))
    (hsq : sq = bsequence_push sym_q (decide (sym.im > 0))) :
    bsync_correlate cccf fs sym =
      .ok ({ fs with
              sym_i := si, sym_q := some sq,
              rxy := some ⟨(bsequence_correlate fs.sync_i si - bsequence_correlate sync_q sq : Int),
                           (bsequence_correlate fs.sync_i sq + bsequence_correlate sync_q si : Int)⟩ },
           some ⟨((bsequence_correlate fs.sync_i si - bsequence_correlate sync_q sq : Int) : ℚ) / fs.n,
                 ((bsequence_correlate fs.sync_i sq + bsequence_correlate sync_q si : Int) : ℚ) / fs.n⟩) := by
  have h0 : fs.n ≠ 0 := by omega
  subst hsi hsq
  rw [bsync_correlate, push_symbol_complex cccf fs sym sym_q rfl hsym]
  simp [bsync_dotprod, cccf, hsync, div_n, h0, bit_re, bit_im]

theorem correlate_cccf_formula_witness :
    bsync_correlate cccf state_cccf_one ⟨1, 1⟩ =
      .ok ({ state_cccf_one with
              sym_i := [true], sym_q := some [true],
              rxy := some ⟨(bsequence_correlate state_cccf_one.sync_i [true]
                              - bsequence_correlate [true] [true] : Int),
                           (bsequence_correlate state_cccf_one.sync_i [true]
                              + bsequence_correlate [true] [true] : Int)⟩ },
           some ⟨((bsequence_correlate state_cccf_one.sync_i [true]
                      - bsequence_correlate [true] [true] : Int) : ℚ) / state_cccf_one.n,
                 ((bsequence_correlate state_cccf_one.sync_i [true]
                      + bsequence_correlate [true] [true] : Int) : ℚ) / state_cccf_one.n⟩) :=
  correlate_cccf_formula state_cccf_one ⟨1, 1⟩ [true] [false] [true] [true] (by decide) rfl rfl
    (by simp [bsequence_push, state_cccf_one]) (by simp [bsequence_push])

/-- C2: with no flag defined (real-real) `correlate` returns `corr(sync_i,sym_i)/n`
for every correlator of length `n > 0`; and the correlator created from the
pattern `[+1,-1,+1,+1,-1,-1,+1,-1]` returns exactly 1 on the 8th push of that
sequence, then exactly 0.75 on the 8th push of `[+1,+1,+1,+1,-1,-1,+1,-1]`. -/
theorem correlate_rrrf_scenario :
    (∀ (fs : bsync_s) (sym : Cplx), 0 < fs.n →
      bsync_correlate rrrf fs sym =
        .ok ({ fs with
                sym_i := bsequence_push fs.sym_i (decide (sym.re > 0)),
                rxy := some ⟨(bsequence_correlate fs.sync_i
                                (bsequence_push fs.sym_i (decide (sym.re > 0))) : Int), 0⟩ },
             some ⟨((bsequence_correlate fs.sync_i
                      (bsequence_push fs.sym_i (decide (sym.re > 0))) : Int) : ℚ) / fs.n, 0⟩)) ∧
    (∃ (fs0 fs1 fs2 : bsync_s) (ys1 ys2 : List (Option Cplx)),
      bsync_create rrrf 8 scenario_pattern = .ok fs0 ∧
      bsync_correlate_all rrrf fs0 scenario_pattern = .ok (fs1, ys1) ∧
      ys1.length = 8 ∧ ys1[7]? = some (some ⟨1, 0⟩) ∧
      bsync_correlate_all rrrf fs1 scenario_second = .ok (fs2, ys2) ∧
      ys2.length = 8 ∧ ys2[7]? = some (some ⟨3 / 4, 0⟩)) := by
  constructor
  · intro fs sym hn
    have h0 : fs.n ≠ 0 := by omega
    rw [bsync_correlate, push_symbol_real rrrf fs sym rfl]
    simp [bsync_dotprod, rrrf, div_n, h0, bit_re]
  · refine ⟨⟨8, [true, false, true, true, false, false, true, false], none,
        [false, false, false, false, false, false, false, false], none, none⟩,
      ⟨8, [true, false, true, true, false, false, true, false], none,
        [true, false, true, true, false, false, true, false], none, some ⟨8, 0⟩⟩,
      ⟨8, [true, false, true, true, false, false, true, false], none,
        [true, true, true, true, false, false, true, false], none, some ⟨6, 0⟩⟩,
      [some ⟨-1 / 4, 0⟩, some ⟨1 / 4, 0⟩, some ⟨-1 / 2, 0⟩, some ⟨-1 / 4, 0⟩,
       some ⟨1 / 4, 0⟩, some ⟨-1 / 4, 0⟩, some ⟨-1 / 2, 0⟩, some ⟨1, 0⟩],
      [some ⟨-1 / 2, 0⟩, some ⟨-1 / 4, 0⟩, some ⟨1 / 4, 0⟩, some ⟨-1 / 4, 0⟩,
       some ⟨-1 / 4, 0⟩, some ⟨1 / 4, 0⟩, some ⟨-1 / 4, 0⟩, some ⟨3 / 4, 0⟩],
      ?_, ?_, rfl, rfl, ?_, rfl, rfl⟩
    · simp [bsync_create, bsync_create_loop, bsequence_create, bsequence_push,
        scenario_pattern, real_sample, bit_re, rrrf, List.replicate]
    · simp [bsync_correlate_all, bsync_correlate, bsync_push_symbol, bsync_dotprod, div_n,
        bsequence_push, bsequence_correlate, scenario_pattern, real_sample, bit_re, rrrf]
      norm_num
    · simp [bsync_correlate_all, bsync_correlate, bsync_push_symbol, bsync_dotprod, div_n,
        bsequence_push, bsequence_correlate, scenario_second, real_sample, bit_re, rrrf]
      norm_num

theorem correlate_rrrf_scenario_witness :
    bsync_correlate rrrf state_rrrf_two ⟨-1, 0⟩ =
      .ok ({ state_rrrf_two with
              sym_i := bsequence_push state_rrrf_two.sym_i (decide ((-1 : ℚ) > 0)),
              rxy := some ⟨(bsequence_correlate state_rrrf_two.sync_i
                              (bsequence_push state_rrrf_two.sym_i (decide ((-1 : ℚ) > 0))) : Int), 0⟩ },
           some ⟨((bsequence_correlate state_rrrf_two.sync_i
                    (bsequence_push state_rrrf_two.sym_i (decide ((-1 : ℚ) > 0))) : Int) : ℚ)
                  / state_rrrf_two.n, 0⟩) :=
  correlate_rrrf_scenario.1 state_rrrf_two ⟨-1, 0⟩ (by decide)

/-- C3 (evaluation of the code): in the real-pattern, complex-symbol, complex-output
instantiation the correlator made from `[1]` returns `-1 + 0i` on the symbol `0 + 1i`,
although `corr(sync_i,sym_q)/n = 1` there: the quadrature rail is pushed but never read. -/
theorem correlate_crcf_ignores_quadrature :
    ∃ (fs0 fs1 : bsync_s) (sq : bsequence),
      bsync_create crcf 1 [⟨1, 0⟩] = .ok fs0 ∧
      bsync_correlate crcf fs0 ⟨0, 1⟩ = .ok (fs1, some ⟨-1, 0⟩) ∧
      fs1.sym_q = some sq ∧
      ((bsequence_correlate fs1.sync_i fs1.sym_i : Int) : ℚ) / fs1.n = -1 ∧
      ((bsequence_correlate fs1.sync_i sq : Int) : ℚ) / fs1.n = 1 := by
  refine ⟨⟨1, [true], none, [false], some [false], none⟩,
    ⟨1, [true], none, [false], some [true], some ⟨-1, 0⟩⟩, [true], ?_, ?_, rfl, ?_, ?_⟩
  · simp [bsync_create, bsync_create_loop, bsequence_create, bsequence_push, bit_re, crcf,
      List.replicate]
  · simp [bsync_correlate, bsync_push_symbol, bsync_dotprod, div_n, bsequence_push,
      bsequence_correlate, bit_re, bit_im, crcf]
  · simp [bsequence_correlate]
  · simp [bsequence_correlate]

/-! ## Streams of symbols -/

theorem push_symbol_eq (cfg : Inst) (fs : bsync_s) (sym : Cplx) (hp : fs.present cfg) :
    bsync_push_symbol cfg fs sym = .ok (fs.pushed cfg sym) := by
  cases hc : cfg.TI_COMPLEX with
  | false => simp [bsync_push_symbol, bsync_s.pushed, hc]
  | true =>
    obtain ⟨q, hq⟩ := hp.2 hc
    simp [bsync_push_symbol, bsync_s.pushed, hc, hq]

theorem present_pushed (cfg : Inst) (fs : bsync_s) (sym : Cplx) (x : Option Cplx)
    (hp : fs.present cfg) : bsync_s.present cfg { fs.pushed cfg sym with rxy := x } := by
  refine ⟨hp.1, fun hc => ?_⟩
  obtain ⟨q, hq⟩ := hp.2 hc
  exact ⟨bsequence_push q (bit_im sym), by simp [bsync_s.pushed, hc, hq]⟩

theorem sized_pushed (cfg : Inst) (fs : bsync_s) (sym : Cplx) (x : Option Cplx)
    (hs : fs.sized) : bsync_s.sized { fs.pushed cfg sym with rxy := x } := by
  obtain ⟨h1, h2, h3, h4⟩ := hs
  refine ⟨h1, ?_, h3, ?_⟩
  · simpa [bsync_s.pushed, bsequence_push_length] using h2
  · intro q hq
    cases hc : cfg.TI_COMPLEX with
    | false =>
      simp only [bsync_s.pushed, hc, Bool.false_eq_true, if_false] at hq
      exact h4 q hq
    | true =>
      simp only [bsync_s.pushed, hc, if_true, Option.map_eq_some'] at hq
      obtain ⟨q0, hq0, rfl⟩ := hq
      simpa [bsequence_push_length] using h4 q0 hq0

theorem dotprod_ok (cfg : Inst) (hl : cfg.legal) (fs : bsync_s) (hp : fs.present cfg) :
    ∃ r, bsync_dotprod cfg fs = .ok r := by
  cases hc : cfg.TC_COMPLEX with
  | false => simp [bsync_dotprod, hc]
  | true =>
    obtain ⟨q, hq⟩ := hp.1 hc
    obtain ⟨s, hs⟩ := hp.2 (hl hc)
    cases ho : cfg.TO_COMPLEX <;> simp [bsync_dotprod, hc, ho, hq, hs]

theorem correlate_step (cfg : Inst) (hl : cfg.legal) (fs : bsync_s) (sym : Cplx)
    (hp : fs.present cfg) :
    ∃ r, bsync_dotprod cfg (fs.pushed cfg sym) = .ok r ∧
      bsync_correlate cfg fs sym =
        .ok ({ fs.pushed cfg sym with rxy := some r }, div_n r fs.n) := by
  obtain ⟨r, hr⟩ := dotprod_ok cfg hl _ (present_pushed cfg fs sym fs.rxy hp)
  have hr2 : bsync_dotprod cfg (fs.pushed cfg sym) = .ok r := hr
  refine ⟨r, hr2, ?_⟩
  rw [bsync_correlate, push_symbol_eq cfg fs sym hp]
  simp only [hr2]
  rfl

theorem correlate_all_spec (cfg : Inst) (hl : cfg.legal) :
    ∀ (syms : List Cplx) (fs : bsync_s), fs.present cfg →
      ∃ fs1 ys, bsync_correlate_all cfg fs syms = .ok (fs1, ys) ∧
        fs1.present cfg ∧ (fs.sized → fs1.sized) ∧
        fs1.n = fs.n ∧ fs1.sync_i = fs.sync_i ∧ fs1.sync_q = fs.sync_q ∧
        fs1.sym_i = List.foldl bsequence_push fs.sym_i (syms.map bit_re) ∧
        fs1.sym_q = (if cfg.TI_COMPLEX then
            fs.sym_q.map (fun q => List.foldl bsequence_push q (syms.map bit_im))
          else fs.sym_q) ∧
        ys.length = syms.length ∧
        (syms ≠ [] → ∃ r, bsync_dotprod cfg fs1 = .ok r ∧ fs1.rxy = some r ∧
          ys.getLast? = some (div_n r fs.n)) ∧
        (∀ y ∈ ys, ∃ fsk r, fsk.present cfg ∧ (fs.sized → fsk.sized) ∧ fsk.n = fs.n ∧
          fsk.sync_i = fs.sync_i ∧ fsk.sync_q = fs.sync_q ∧
          bsync_dotprod cfg fsk = .ok r ∧ y = div_n r fs.n) := by
  intro syms
  induction syms with
  | nil =>
    intro fs hp
    refine ⟨fs, [], rfl, hp, id, rfl, rfl, rfl, rfl, ?_, rfl, ?_, ?_⟩
    · cases cfg.TI_COMPLEX <;> simp
    · intro h; exact absurd rfl h
    · intro y hy; simp at hy
  | cons s rest ih =>
    intro fs hp
    obtain ⟨r, hr, hstep⟩ := correlate_step cfg hl fs s hp
    have hp1 := present_pushed cfg fs s (some r) hp
    obtain ⟨fs2, ys, hall, hp2, hs2, hn2, hsi2, hsq2, hmi2, hmq2, hlen, hlast, hys⟩ :=
      ih _ hp1
    refine ⟨fs2, div_n r fs.n :: ys, ?_, hp2, ?_, ?_, ?_, ?_, ?_, ?_, ?_, ?_, ?_⟩
    · simp only [bsync_correlate_all, hstep, hall]
    · intro hs; exact hs2 (sized_pushed cfg fs s (some r) hs)
    · rw [hn2]; rfl
    · rw [hsi2]; rfl
    · rw [hsq2]; rfl
    · rw [hmi2]; rfl
    · rw [hmq2]
      cases hc : cfg.TI_COMPLEX with
      | false => simp [bsync_s.pushed, hc]
      | true =>
        cases hq : fs.sym_q <;> simp [bsync_s.pushed, hc, hq]
    · simp [hlen]
    · intro _
      cases rest with
      | nil =>
        simp only [bsync_correlate_all, Except.ok.injEq, Prod.mk.injEq] at hall
        obtain ⟨rfl, rfl⟩ := hall
        exact ⟨r, hr, rfl, rfl⟩
      | cons s2 rest2 =>
        obtain ⟨r2, hr2, hrxy2, hl2⟩ := hlast (by simp)
        refine ⟨r2, hr2, hrxy2, ?_⟩
        rw [List.getLast?_cons, hl2]
        rfl
    · intro y hy
      rcases List.mem_cons.1 hy with rfl | hy
      · exact ⟨fs.pushed cfg s, r, present_pushed cfg fs s fs.rxy hp,
          fun hs => sized_pushed cfg fs s fs.rxy hs, rfl, rfl, rfl, hr, rfl⟩
      · obtain ⟨fsk, rk, h1, h2, h3, h4, h5, h6, h7⟩ := hys y hy
        exact ⟨fsk, rk, h1, fun hs => h2 (sized_pushed cfg fs s (some r) hs),
          h3, h4, h5, h6, h7⟩

/-! ## Magnitude of the statistic -/

theorem cccx_linear_bounds :
    ∀ (n : Nat) (s t r u : bsequence), s.length = n → t.length = n → r.length = n →
      u.length = n →
      (bsequence_correlate s r - bsequence_correlate t u)
          + (bsequence_correlate s u + bsequence_correlate t r) ≤ 2 * (n : Int) ∧
      (bsequence_correlate s r - bsequence_correlate t u)
          - (bsequence_correlate s u + bsequence_correlate t r) ≤ 2 * (n : Int) ∧
      -(bsequence_correlate s r - bsequence_correlate t u)
          + (bsequence_correlate s u + bsequence_correlate t r) ≤ 2 * (n : Int) ∧
      -(bsequence_correlate s r - bsequence_correlate t u)
          - (bsequence_correlate s u + bsequence_correlate t r) ≤ 2 * (n : Int) := by
  intro n
  induction n with
  | zero =>
    intro s t r u hs ht hr hu
    rw [List.length_eq_zero] at hs ht hr hu
    subst hs ht hr hu
    simp [bsequence_correlate]
  | succ n ih =>
    intro s t r u hs ht hr hu
    match s, t, r, u, hs, ht, hr, hu with
    | a :: s, b :: t, c :: r, d :: u, hs, ht, hr, hu =>
      simp only [List.length_cons, Nat.add_right_cancel_iff] at hs ht hr hu
      have h := ih s t r u hs ht hr hu
      simp only [bsequence_correlate, List.zipWith_cons_cons, List.sum_cons] at h ⊢
      push_cast
      cases a <;> cases b <;> cases c <;> cases d <;> simp <;> omega

theorem normSq_le_of_linear (x y m : Int) (h1 : x + y ≤ m) (h2 : x - y ≤ m)
    (h3 : -x + y ≤ m) (h4 : -x - y ≤ m) : x * x + y * y ≤ m * m := by
  nlinarith [mul_nonneg (sub_nonneg.2 h1) (sub_nonneg.2 h4),
    mul_nonneg (sub_nonneg.2 h2) (sub_nonneg.2 h3)]

theorem dotprod_bound_cccx (fs : bsync_s) (hs : fs.sized) (r : Cplx)
    (h : bsync_dotprod cccf fs = .ok r) : r.normSq ≤ 4 * ((fs.n : ℚ) * fs.n) := by
  obtain ⟨h1, h2, h3, h4⟩ := hs
  simp only [bsync_dotprod, cccf, Bool.and_self, if_true] at h
  cases hq : fs.sync_q with
  | none => simp [hq] at h
  | some sq =>
    cases hm : fs.sym_q with
    | none => simp [hq, hm] at h
    | some mq =>
      simp only [hq, hm, Except.ok.injEq] at h
      subst h
      obtain ⟨b1, b2, b3, b4⟩ :=
        cccx_linear_bounds fs.n fs.sync_i sq fs.sym_i mq h1 (h3 sq hq) h2 (h4 mq hm)
      have hb := normSq_le_of_linear _ _ _ b1 b2 b3 b4
      have hb2 : (((bsequence_correlate fs.sync_i fs.sym_i - bsequence_correlate sq mq)
            * (bsequence_correlate fs.sync_i fs.sym_i - bsequence_correlate sq mq)
          + (bsequence_correlate fs.sync_i mq + bsequence_correlate sq fs.sym_i)
            * (bsequence_correlate fs.sync_i mq + bsequence_correlate sq fs.sym_i) : Int) : ℚ)
          ≤ ((2 * (fs.n : Int) * (2 * (fs.n : Int)) : Int) : ℚ) := by
        exact_mod_cast hb
      simp only [Cplx.normSq]
      push_cast at hb2 ⊢
      linarith

theorem dotprod_bound_real (cfg : Inst) (hc : cfg.TC_COMPLEX = false) (fs : bsync_s)
    (hs : fs.sized) (r : Cplx) (h : bsync_dotprod cfg fs = .ok r) :
    r.normSq ≤ (fs.n : ℚ) * fs.n := by
  obtain ⟨h1, h2, _, _⟩ := hs
  simp only [bsync_dotprod, hc, Bool.false_and, Bool.false_eq_true, if_false,
    Except.ok.injEq] at h
  subst h
  obtain ⟨b1, b2⟩ := bsequence_correlate_bounds fs.sync_i fs.sym_i fs.n h1 h2
  have hb : bsequence_correlate fs.sync_i fs.sym_i * bsequence_correlate fs.sync_i fs.sym_i
      ≤ (fs.n : Int) * fs.n := by nlinarith
  have hb2 : ((bsequence_correlate fs.sync_i fs.sym_i
      * bsequence_correlate fs.sync_i fs.sym_i : Int) : ℚ) ≤ (((fs.n : Int) * fs.n : Int) : ℚ) := by
    exact_mod_cast hb
  simp only [Cplx.normSq]
  push_cast at hb2 ⊢
  linarith

theorem div_n_bound (r : Cplx) (n : Nat) (B : ℚ) (hn : 0 < n)
    (h : r.normSq ≤ B * ((n : ℚ) * n)) :
    ∃ z, div_n r n = some z ∧ z.normSq ≤ B := by
  have h0 : n ≠ 0 := by omega
  have hpos : (0 : ℚ) < (n : ℚ) * n := by positivity
  refine ⟨⟨r.re / n, r.im / n⟩, by simp [div_n, h0], ?_⟩
  have e : (⟨r.re / n, r.im / n⟩ : Cplx).normSq = r.normSq / ((n : ℚ) * n) := by
    simp only [Cplx.normSq]
    field_simp
  rw [e, div_le_iff₀ hpos]
  exact h

/-! ## Fresh correlators -/

theorem create_present_sized (cfg : Inst) (n : Nat) (v : List Cplx) (h : n ≤ v.length) :
    ∃ fs0, bsync_create cfg n v = .ok fs0 ∧ fs0.present cfg ∧ fs0.sized ∧ fs0.n = n ∧
      fs0.sync_i = (v.take n).map bit_re ∧
      fs0.sync_q = (if cfg.TC_COMPLEX then some ((v.take n).map bit_im) else none) ∧
      fs0.sym_i = bsequence_create n ∧
      fs0.sym_q = (if cfg.TI_COMPLEX then some (bsequence_create n) else none) ∧
      fs0.rxy = none := by
  refine ⟨_, bsync_create_eq cfg n v h, ⟨?_, ?_⟩, ⟨?_, ?_, ?_, ?_⟩, rfl, rfl, rfl, rfl, rfl, rfl⟩
  · intro hc; simp [hc]
  · intro hc; simp [hc]
  · simp [h]
  · simp [bsequence_create]
  · intro q hq
    cases hc : cfg.TC_COMPLEX <;> simp [hc] at hq
    subst hq; simp [h]
  · intro q hq
    cases hc : cfg.TI_COMPLEX <;> simp [hc] at hq
    subst hq; simp [bsequence_create]

theorem legal_rrrf : rrrf.legal := by simp [Inst.legal, rrrf]

theorem legal_crcf : crcf.legal := by simp [Inst.legal, crcf]

theorem legal_cccf : cccf.legal := by simp [Inst.legal, cccf]

/-- C4 (as stated, refuted): in the complex-complex instantiation the correlator
made from `[1+i]` returns `0 + 2i` on the symbol `1+i`, of squared magnitude 4,
so the bound `|correlation| <= 1` does not hold for every instantiation. -/
theorem normalization_bound_fails :
    (∃ fs0 fs : bsync_s,
      bsync_create cccf 1 [⟨1, 1⟩] = .ok fs0 ∧
      bsync_correlate_all cccf fs0 [⟨1, 1⟩] = .ok (fs, [some ⟨0, 2⟩]) ∧
      fs.rxy = some ⟨0, 2⟩ ∧ fs.n = 1 ∧
      ¬ ((⟨0, 2⟩ : Cplx).normSq ≤ 1)) ∧
    ¬ (∀ (cfg : Inst) (n : Nat) (v syms : List Cplx) (fs0 fs : bsync_s)
        (ys : List (Option Cplx)) (y : Cplx),
        (cfg = rrrf ∨ cfg = crcf ∨ cfg = cccf) → 0 < n → v.length = n →
        bsync_create cfg n v = .ok fs0 →
        bsync_correlate_all cfg fs0 syms = .ok (fs, ys) →
        some y ∈ ys → y.normSq ≤ 1) := by
  have hcreate : bsync_create cccf 1 [⟨1, 1⟩]
      = .ok ⟨1, [true], some [true], [false], some [false], none⟩ := by
    simp [bsync_create, bsync_create_loop, bsequence_create, bsequence_push, bit_re,
      bit_im, cccf, List.replicate]
  have hrun : bsync_correlate_all cccf ⟨1, [true], some [true], [false], some [false], none⟩
      [⟨1, 1⟩]
      = .ok (⟨1, [true], some [true], [true], some [true], some ⟨0, 2⟩⟩, [some ⟨0, 2⟩]) := by
    simp [bsync_correlate_all, bsync_correlate, bsync_push_symbol, bsync_dotprod, div_n,
      bsequence_push, bsequence_correlate, bit_re, bit_im, cccf]
  have hbig : ¬ ((⟨0, 2⟩ : Cplx).normSq ≤ 1) := by norm_num [Cplx.normSq]
  refine ⟨⟨_, _, hcreate, hrun, rfl, rfl, hbig⟩, fun h => hbig ?_⟩
  exact h cccf 1 [⟨1, 1⟩] [⟨1, 1⟩] _ _ _ ⟨0, 2⟩ (Or.inr (Or.inr rfl)) (by decide) rfl
    hcreate hrun (by simp)

/-- C4 (amended): for a pattern of length `n > 0` and every finite stream of
symbols, every value returned by `correlate` is finite and has squared magnitude
at most 1 in the real-real and real-pattern/complex-symbol instantiations, and at
most 4 (magnitude at most 2) in the complex-complex instantiation; the cached
un-normalised statistic satisfies `|rxy|^2 <= n^2`, respectively `(2n)^2`. -/
theorem normalization_bound_amended (cfg : Inst) (n : Nat) (v syms : List Cplx)
    (hc : cfg = rrrf ∨ cfg = crcf ∨ cfg = cccf) (hn : 0 < n) (hv : v.length = n) :
    ∃ (fs0 fs : bsync_s) (ys : List (Option Cplx)),
      bsync_create cfg n v = .ok fs0 ∧
      bsync_correlate_all cfg fs0 syms = .ok (fs, ys) ∧
      ys.length = syms.length ∧
      (∀ y ∈ ys, ∃ z, y = some z ∧ z.normSq ≤ (if cfg = cccf then 4 else 1)) ∧
      (∀ r, fs.rxy = some r →
        r.normSq ≤ (if cfg = cccf then 4 else 1) * ((n : ℚ) * n)) := by
  have hl : cfg.legal := by
    rcases hc with rfl | rfl | rfl
    · exact legal_rrrf
    · exact legal_crcf
    · exact legal_cccf
  have hbound : ∀ (fsk : bsync_s) (r : Cplx), fsk.sized → fsk.n = n →
      bsync_dotprod cfg fsk = .ok r →
      r.normSq ≤ (if cfg = cccf then 4 else 1) * ((n : ℚ) * n) := by
    intro fsk r hs hnk hr
    rcases hc with rfl | rfl | rfl
    · have := dotprod_bound_real rrrf rfl fsk hs r hr
      rw [hnk] at this
      simpa [show rrrf ≠ cccf by decide] using this
    · have := dotprod_bound_real crcf rfl fsk hs r hr
      rw [hnk] at this
      simpa [show crcf ≠ cccf by decide] using this
    · have := dotprod_bound_cccx fsk hs r hr
      rw [hnk] at this
      simpa using this
  obtain ⟨fs0, hcreate, hp0, hs0, hn0, _, _, _, _, hrxy0⟩ :=
    create_present_sized cfg n v (le_of_eq hv.symm)
  obtain ⟨fs, ys, hall, _, hs1, hn1, _, _, _, _, hlen, hlast, hys⟩ :=
    correlate_all_spec cfg hl syms fs0 hp0
  refine ⟨fs0, fs, ys, hcreate, hall, hlen, ?_, ?_⟩
  · intro y hy
    obtain ⟨fsk, r, _, hsk, hnk, _, _, hr, rfl⟩ := hys y hy
    rw [hn0]
    exact div_n_bound r n _ hn (hbound fsk r (hsk hs0) (hnk.trans hn0) hr)
  · intro r hr
    cases syms with
    | nil =>
      simp only [bsync_correlate_all, Except.ok.injEq, Prod.mk.injEq] at hall
      rw [← hall.1, hrxy0] at hr
      exact absurd hr (by simp)
    | cons s rest =>
      obtain ⟨r2, hr2, hrxy2, _⟩ := hlast (by simp)
      rw [hrxy2] at hr
      obtain rfl := Option.some.inj hr
      exact hbound fs r2 (hs1 hs0) (hn1.trans hn0) hr2

theorem normalization_bound_amended_witness :
    ∃ (fs0 fs : bsync_s) (ys : List (Option Cplx)),
      bsync_create cccf 1 [⟨1, 1⟩] = .ok fs0 ∧
      bsync_correlate_all cccf fs0 [⟨1, 1⟩, ⟨-1, 1⟩] = .ok (fs, ys) ∧
      ys.length = [(⟨1, 1⟩ : Cplx), ⟨-1, 1⟩].length ∧
      (∀ y ∈ ys, ∃ z, y = some z ∧ z.normSq ≤ (if cccf = cccf then 4 else 1)) ∧
      (∀ r, fs.rxy = some r →
        r.normSq ≤ (if cccf = cccf then 4 else 1) * (((1 : Nat) : ℚ) * (1 : Nat))) :=
  normalization_bound_amended cccf 1 [⟨1, 1⟩] [⟨1, 1⟩, ⟨-1, 1⟩] (Or.inr (Or.inr rfl))
    (by decide) rfl

/-! ## Perfect alignment -/

theorem bsequence_correlate_comm (a b : bsequence) :
    bsequence_correlate a b = bsequence_correlate b a := by
  induction a generalizing b with
  | nil => cases b <;> simp [bsequence_correlate]
  | cons x rest ih =>
    cases b with
    | nil => simp [bsequence_correlate]
    | cons y restb =>
      have h := ih restb
      simp only [bsequence_correlate, List.zipWith_cons_cons, List.sum_cons] at h ⊢
      rw [h]
      cases x <;> cases y <;> simp

/-- C5 (as stated, refuted): in the complex-complex instantiation the correlator
made from `[1+i, 1-i]` has its received rails equal to its reference rails after
the two samples are pushed in order, yet the second push returns `0 + 0i`, whose
magnitude is 0 and not 1. -/
theorem perfect_alignment_fails :
    ∃ fs0 fs : bsync_s,
      bsync_create cccf 2 [⟨1, 1⟩, ⟨1, -1⟩] = .ok fs0 ∧
      bsync_correlate_all cccf fs0 [⟨1, 1⟩, ⟨1, -1⟩]
        = .ok (fs, [some ⟨1, -1⟩, some ⟨0, 0⟩]) ∧
      fs.sym_i = fs.sync_i ∧ fs.sym_q = fs.sync_q ∧
      ¬ ((⟨0, 0⟩ : Cplx).normSq = 1) := by
  refine ⟨⟨2, [true, true], some [true, false], [false, false], some [false, false], none⟩,
    ⟨2, [true, true], some [true, false], [true, true], some [true, false], some ⟨0, 0⟩⟩,
    ?_, ?_, rfl, rfl, ?_⟩
  · simp [bsync_create, bsync_create_loop, bsequence_create, bsequence_push, bit_re,
      bit_im, cccf, List.replicate]
  · simp [bsync_correlate_all, bsync_correlate, bsync_push_symbol, bsync_dotprod, div_n,
      bsequence_push, bsequence_correlate, bit_re, bit_im, cccf]
    norm_num
  · norm_num [Cplx.normSq]

/-- C5 (amended): for every explicit pattern `v` of length `n > 0`, creating a
correlator with `create(n, v)` and pushing `v[0..n-1]` in order makes the received
rail(s) equal to the reference rail(s); the `n`-th push returns exactly 1 in the
real-real instantiation, and exactly `0 + i 2 corr(sync_i,sync_q)/n` in the
complex-complex instantiation. -/
theorem perfect_alignment_amended (cfg : Inst) (n : Nat) (v : List Cplx)
    (hl : cfg.legal) (hn : 0 < n) (hv : v.length = n) :
    ∃ (fs0 fs : bsync_s) (ys : List (Option Cplx)),
      bsync_create cfg n v = .ok fs0 ∧
      bsync_correlate_all cfg fs0 v = .ok (fs, ys) ∧
      ys.length = n ∧
      fs.sym_i = fs.sync_i ∧
      (cfg.TC_COMPLEX = true → fs.sym_q = fs.sync_q) ∧
      (cfg = rrrf → ys.getLast? = some (some ⟨1, 0⟩)) ∧
      (cfg = cccf → ∃ sq, fs.sync_q = some sq ∧
        ys.getLast? = some (some ⟨0, 2 * (bsequence_correlate fs.sync_i sq : ℚ) / n⟩)) := by
  have h0 : n ≠ 0 := by omega
  have hq0 : (n : ℚ) ≠ 0 := by exact_mod_cast h0
  have hne : v ≠ [] := by
    intro h; rw [h] at hv; simp at hv; omega
  obtain ⟨fs0, hcreate, hp0, hs0, hn0, hsi0, hsq0, hmi0, hmq0, _⟩ :=
    create_present_sized cfg n v (le_of_eq hv.symm)
  obtain ⟨fs, ys, hall, _, _, hn1, hsi1, hsq1, hmi1, hmq1, hlen, hlast, _⟩ :=
    correlate_all_spec cfg hl v fs0 hp0
  have htake : v.take n = v := by rw [← hv, List.take_length]
  rw [htake] at hsi0 hsq0
  have hfull (f : Cplx → Bool) :
      List.foldl bsequence_push (bsequence_create n) (v.map f) = v.map f :=
    foldl_push_full _ _ (by simp [bsequence_create, hv])
  have hsym_i : fs.sym_i = v.map bit_re := by rw [hmi1, hmi0, hfull]
  have hsync_i : fs.sync_i = v.map bit_re := by rw [hsi1, hsi0]
  have hsym_q : cfg.TI_COMPLEX = true → fs.sym_q = some (v.map bit_im) := by
    intro hc; rw [hmq1, hmq0]; simp [hc, hfull]
  have hsync_q : cfg.TC_COMPLEX = true → fs.sync_q = some (v.map bit_im) := by
    intro hc; rw [hsq1, hsq0]; simp [hc]
  obtain ⟨r, hr, _, hy⟩ := hlast hne
  rw [hn0] at hy
  refine ⟨fs0, fs, ys, hcreate, hall, by rw [hlen, hv], by rw [hsym_i, hsync_i], ?_, ?_, ?_⟩
  · intro hc; rw [hsym_q (hl hc), hsync_q hc]
  · intro hcfg
    subst hcfg
    simp only [bsync_dotprod, rrrf, Bool.false_and, Bool.false_eq_true, if_false,
      Except.ok.injEq] at hr
    rw [hy, ← hr, hsym_i, hsync_i, bsequence_correlate_self]
    simp [div_n, h0, hv, hq0]
  · intro hcfg
    subst hcfg
    have e1 := hsym_q rfl
    have e2 := hsync_q rfl
    refine ⟨v.map bit_im, e2, ?_⟩
    simp only [bsync_dotprod, cccf, Bool.and_self, if_true, e1, e2, Except.ok.injEq] at hr
    rw [hy, ← hr, hsym_i, hsync_i, bsequence_correlate_self, bsequence_correlate_self,
      bsequence_correlate_comm (v.map bit_im) (v.map bit_re)]
    simp [div_n, h0]
    ring

theorem perfect_alignment_amended_witness :
    ∃ (fs0 fs : bsync_s) (ys : List (Option Cplx)),
      bsync_create rrrf 8 scenario_pattern = .ok fs0 ∧
      bsync_correlate_all rrrf fs0 scenario_pattern = .ok (fs, ys) ∧
      ys.length = 8 ∧
      fs.sym_i = fs.sync_i ∧
      (rrrf.TC_COMPLEX = true → fs.sym_q = fs.sync_q) ∧
      (rrrf = rrrf → ys.getLast? = some (some ⟨1, 0⟩)) ∧
      (rrrf = cccf → ∃ sq, fs.sync_q = some sq ∧
        ys.getLast? = some (some ⟨0, 2 * (bsequence_correlate fs.sync_i sq : ℚ) / (8 : Nat)⟩)) :=
  perfect_alignment_amended rrrf 8 scenario_pattern legal_rrrf (by decide) rfl

/-! ## Sliding window -/

theorem dotprod_congr (cfg : Inst) (fs fs1 : bsync_s) (h1 : fs.sync_i = fs1.sync_i)
    (h2 : fs.sync_q = fs1.sync_q) (h3 : fs.sym_i = fs1.sym_i) (h4 : fs.sym_q = fs1.sym_q) :
    bsync_dotprod cfg fs = bsync_dotprod cfg fs1 := by
  simp only [bsync_dotprod, h1, h2, h3, h4]

theorem window_of_long (n : Nat) (bits : List Bool) (h : n ≤ bits.length) :
    (List.replicate n false ++ bits).drop bits.length = bits.drop (bits.length - n) := by
  rw [List.drop_append_eq_append_drop]
  simp [h]

/-- C6: after `k` calls of `correlate` on a freshly created correlator of length
`n`, each received rail has exactly `n` bits and is the last `n` bits of (`n` zero
bits followed by the `k` thresholded bits in push order); hence, once `k >= n`,
the value returned last is the same for any two streams whose most recent `n`
symbols have the same signs, given the same reference rails. -/
theorem sliding_window (cfg : Inst) (n : Nat) (v syms : List Cplx)
    (hl : cfg.legal) (hv : v.length = n) :
    ∃ (fs0 fs : bsync_s) (ys : List (Option Cplx)),
      bsync_create cfg n v = .ok fs0 ∧
      bsync_correlate_all cfg fs0 syms = .ok (fs, ys) ∧
      ys.length = syms.length ∧ fs.n = n ∧
      fs.sym_i.length = n ∧
      fs.sym_i = (List.replicate n false
                    ++ syms.map (fun x => decide (x.re > 0))).drop syms.length ∧
      (cfg.TI_COMPLEX = true → ∃ q, fs.sym_q = some q ∧ q.length = n ∧
        q = (List.replicate n false
              ++ syms.map (fun x => decide (x.im > 0))).drop syms.length) ∧
      (∀ (v2 syms2 : List Cplx) (fs2 gs : bsync_s) (zs : List (Option Cplx)),
        v2.length = n →
        bsync_create cfg n v2 = .ok fs2 →
        fs2.sync_i = fs0.sync_i → fs2.sync_q = fs0.sync_q →
        bsync_correlate_all cfg fs2 syms2 = .ok (gs, zs) →
        n ≤ syms.length → n ≤ syms2.length → syms ≠ [] → syms2 ≠ [] →
        (syms.map (fun x => decide (x.re > 0))).drop (syms.length - n)
          = (syms2.map (fun x => decide (x.re > 0))).drop (syms2.length - n) →
        (cfg.TI_COMPLEX = true →
          (syms.map (fun x => decide (x.im > 0))).drop (syms.length - n)
            = (syms2.map (fun x => decide (x.im > 0))).drop (syms2.length - n)) →
        ys.getLast? = zs.getLast?) := by
  have key : ∀ (w ss : List Cplx), w.length = n →
      ∃ (f0 f1 : bsync_s) (os : List (Option Cplx)),
        bsync_create cfg n w = .ok f0 ∧
        bsync_correlate_all cfg f0 ss = .ok (f1, os) ∧
        os.length = ss.length ∧ f1.n = n ∧
        f1.sync_i = f0.sync_i ∧ f1.sync_q = f0.sync_q ∧
        f1.sym_i = (List.replicate n false ++ ss.map bit_re).drop ss.length ∧
        f1.sym_q = (if cfg.TI_COMPLEX then
          some ((List.replicate n false ++ ss.map bit_im).drop ss.length) else none) ∧
        (ss ≠ [] → ∃ r, bsync_dotprod cfg f1 = .ok r ∧ os.getLast? = some (div_n r n)) := by
    intro w ss hw
    obtain ⟨f0, hcreate, hp0, _, hn0, _, _, hmi0, hmq0, _⟩ :=
      create_present_sized cfg n w (le_of_eq hw.symm)
    obtain ⟨f1, os, hall, _, _, hn1, hsi1, hsq1, hmi1, hmq1, hlen, hlast, _⟩ :=
      correlate_all_spec cfg hl ss f0 hp0
    refine ⟨f0, f1, os, hcreate, hall, hlen, hn1.trans hn0, hsi1, hsq1, ?_, ?_, ?_⟩
    · rw [hmi1, hmi0, foldl_push_eq]; simp [bsequence_create]
    · rw [hmq1, hmq0]
      cases hc : cfg.TI_COMPLEX <;> simp [foldl_push_eq, bsequence_create]
    · intro hne
      obtain ⟨r, hr, _, hy⟩ := hlast hne
      exact ⟨r, hr, by rw [hy, hn0]⟩
  obtain ⟨fs0, fs, ys, hcreate, hall, hlen, hn1, hsi, hsq, hmi, hmq, hlast⟩ := key v syms hv
  refine ⟨fs0, fs, ys, hcreate, hall, hlen, hn1, ?_, hmi, ?_, ?_⟩
  · rw [hmi]; simp
  · intro hc
    refine ⟨_, by rw [hmq]; simp [hc]; rfl, ?_, rfl⟩
    simp
  · intro v2 syms2 fs2 gs zs hv2 hcreate2 hsi2 hsq2 hall2 hk hk2 hne hne2 hre him
    obtain ⟨f0, f1, os, hc0, ha0, _, _, hsi3, hsq3, hmi3, hmq3, hlast3⟩ := key v2 syms2 hv2
    rw [hcreate2] at hc0
    obtain rfl := Except.ok.inj hc0
    rw [hall2] at ha0
    have hpair := Except.ok.inj ha0
    obtain ⟨rfl, rfl⟩ := Prod.mk.inj hpair
    obtain ⟨r, hr, hy⟩ := hlast hne
    obtain ⟨r3, hr3, hy3⟩ := hlast3 hne2
    have hwin (f : Cplx → Bool) (ss : List Cplx) (h : n ≤ ss.length) :
        (List.replicate n false ++ ss.map f).drop ss.length
          = (ss.map f).drop (ss.length - n) := by
      have := window_of_long n (ss.map f) (by simpa using h)
      simpa using this
    have e : bsync_dotprod cfg fs = bsync_dotprod cfg gs := by
      apply dotprod_congr
      · rw [hsi, hsi3, hsi2]
      · rw [hsq, hsq3, hsq2]
      · rw [hmi, hmi3, hwin _ _ hk, hwin _ _ hk2]; exact hre
      · rw [hmq, hmq3]
        cases hc : cfg.TI_COMPLEX with
        | false => simp
        | true =>
          simp only [if_true]
          rw [hwin _ _ hk, hwin _ _ hk2]
          exact congrArg some (him hc)
    rw [hr, hr3] at e
    obtain rfl := Except.ok.inj e
    rw [hy, hy3]

theorem sliding_window_witness :
    ∃ (fs0 fs : bsync_s) (ys : List (Option Cplx)),
      bsync_create rrrf 2 [⟨1, 0⟩, ⟨-1, 0⟩] = .ok fs0 ∧
      bsync_correlate_all rrrf fs0 [⟨1, 0⟩, ⟨1, 0⟩, ⟨-1, 0⟩] = .ok (fs, ys) ∧
      ys.length = [(⟨1, 0⟩ : Cplx), ⟨1, 0⟩, ⟨-1, 0⟩].length ∧ fs.n = 2 ∧
      fs.sym_i.length = 2 ∧
      fs.sym_i = (List.replicate 2 false
          ++ [(⟨1, 0⟩ : Cplx), ⟨1, 0⟩, ⟨-1, 0⟩].map (fun x => decide (x.re > 0))).drop
            [(⟨1, 0⟩ : Cplx), ⟨1, 0⟩, ⟨-1, 0⟩].length ∧
      (rrrf.TI_COMPLEX = true → ∃ q, fs.sym_q = some q ∧ q.length = 2 ∧
        q = (List.replicate 2 false
            ++ [(⟨1, 0⟩ : Cplx), ⟨1, 0⟩, ⟨-1, 0⟩].map (fun x => decide (x.im > 0))).drop
              [(⟨1, 0⟩ : Cplx), ⟨1, 0⟩, ⟨-1, 0⟩].length) ∧
      (∀ (v2 syms2 : List Cplx) (fs2 gs : bsync_s) (zs : List (Option Cplx)),
        v2.length = 2 →
        bsync_create rrrf 2 v2 = .ok fs2 →
        fs2.sync_i = fs0.sync_i → fs2.sync_q = fs0.sync_q →
        bsync_correlate_all rrrf fs2 syms2 = .ok (gs, zs) →
        2 ≤ [(⟨1, 0⟩ : Cplx), ⟨1, 0⟩, ⟨-1, 0⟩].length → 2 ≤ syms2.length →
        [(⟨1, 0⟩ : Cplx), ⟨1, 0⟩, ⟨-1, 0⟩] ≠ [] → syms2 ≠ [] →
        ([(⟨1, 0⟩ : Cplx), ⟨1, 0⟩, ⟨-1, 0⟩].map (fun x => decide (x.re > 0))).drop
            ([(⟨1, 0⟩ : Cplx), ⟨1, 0⟩, ⟨-1, 0⟩].length - 2)
          = (syms2.map (fun x => decide (x.re > 0))).drop (syms2.length - 2) →
        (rrrf.TI_COMPLEX = true →
          ([(⟨1, 0⟩ : Cplx), ⟨1, 0⟩, ⟨-1, 0⟩].map (fun x => decide (x.im > 0))).drop
              ([(⟨1, 0⟩ : Cplx), ⟨1, 0⟩, ⟨-1, 0⟩].length - 2)
            = (syms2.map (fun x => decide (x.im > 0))).drop (syms2.length - 2)) →
        ys.getLast? = zs.getLast?) :=
  sliding_window rrrf 2 [⟨1, 0⟩, ⟨-1, 0⟩] [⟨1, 0⟩, ⟨1, 0⟩, ⟨-1, 0⟩] legal_rrrf rfl

/-! ## Construction -/

/-- C7: for every `n` and sample vector `v` of length `n`, `create(n, v)` yields a
correlator of length `n` whose in-phase reference rail has, at position `i` in
push order, bit 1 iff `real(v[i]) > 0` and bit 0 otherwise (zero or negative),
and, for a complex pattern type, whose quadrature reference rail has at position
`i` bit 1 iff `imag(v[i]) > 0`. -/
theorem create_reference_rails (cfg : Inst) (n : Nat) (v : List Cplx) (hv : v.length = n) :
    ∃ fs : bsync_s,
      bsync_create cfg n v = .ok fs ∧ fs.n = n ∧ fs.sync_i.length = n ∧
      (∀ (i : Nat) (x : Cplx), v[i]? = some x →
        (fs.sync_i[i]? = some true ↔ x.re > 0) ∧ (fs.sync_i[i]? = some false ↔ x.re ≤ 0)) ∧
      (cfg.TC_COMPLEX = true → ∃ q, fs.sync_q = some q ∧ q.length = n ∧
        ∀ (i : Nat) (x : Cplx), v[i]? = some x →
          (q[i]? = some true ↔ x.im > 0) ∧ (q[i]? = some false ↔ x.im ≤ 0)) ∧
      (cfg.TC_COMPLEX = false → fs.sync_q = none) := by
  obtain ⟨fs, hcreate, _, hs, hn, hsi, hsq, _, _, _⟩ :=
    create_present_sized cfg n v (le_of_eq hv.symm)
  have htake : v.take n = v := by rw [← hv, List.take_length]
  rw [htake] at hsi hsq
  refine ⟨fs, hcreate, hn, by rw [hs.1, hn], ?_, ?_, ?_⟩
  · intro i x hx
    rw [hsi, List.getElem?_map, hx]
    simp [bit_re]
  · intro hc
    refine ⟨v.map bit_im, by rw [hsq]; simp [hc], by simp [hv], ?_⟩
    intro i x hx
    rw [List.getElem?_map, hx]
    simp [bit_im]
  · intro hc
    rw [hsq]; simp [hc]

theorem create_reference_rails_witness :
    ∃ fs : bsync_s,
      bsync_create cccf 2 [⟨1, 0⟩, ⟨-1, 2⟩] = .ok fs ∧ fs.n = 2 ∧ fs.sync_i.length = 2 ∧
      (∀ (i : Nat) (x : Cplx), [(⟨1, 0⟩ : Cplx), ⟨-1, 2⟩][i]? = some x →
        (fs.sync_i[i]? = some true ↔ x.re > 0) ∧ (fs.sync_i[i]? = some false ↔ x.re ≤ 0)) ∧
      (cccf.TC_COMPLEX = true → ∃ q, fs.sync_q = some q ∧ q.length = 2 ∧
        ∀ (i : Nat) (x : Cplx), [(⟨1, 0⟩ : Cplx), ⟨-1, 2⟩][i]? = some x →
          (q[i]? = some true ↔ x.im > 0) ∧ (q[i]? = some false ↔ x.im ≤ 0)) ∧
      (cccf.TC_COMPLEX = false → fs.sync_q = none) :=
  create_reference_rails cccf 2 [⟨1, 0⟩, ⟨-1, 2⟩] rfl

/-- C10 (as stated, refuted): `create` with `n = 0` does not fail; it returns a
correlator of length 0 whose rails are empty. -/
theorem create_zero_length_returns :
    bsync_create rrrf 0 [] = .ok ⟨0, [], none, [], none, none⟩ ∧
    ¬ (∃ e, bsync_create rrrf 0 [] = .error e) := by
  have h : bsync_create rrrf 0 [] = .ok ⟨0, [], none, [], none, none⟩ := by
    simp [bsync_create, bsync_create_loop, bsequence_create, rrrf]
  refine ⟨h, ?_⟩
  rintro ⟨e, he⟩
  rw [h] at he
  exact absurd he (by simp)

/-- C10 (amended): `create` makes no check of the length: for `n = 0` and any
sample vector it returns a correlator of length 0 with empty rails. -/
theorem create_zero_length_amended (cfg : Inst) (v : List Cplx) :
    bsync_create cfg 0 v =
      .ok ⟨0, [], if cfg.TC_COMPLEX then some [] else none, [],
           if cfg.TI_COMPLEX then some [] else none, none⟩ := by
  rw [bsync_create_eq cfg 0 v (Nat.zero_le _)]
  simp [bsequence_create]

/-! ## Construction from a generator -/

theorem bsequence_drain_length (L : Generator) :
    ∀ (k : Nat) (bs : bsequence) (ms : msequence),
      (bsequence_drain L k bs ms).1.length = bs.length := by
  intro k
  induction k with
  | zero => intro bs ms; rfl
  | succ k ih =>
    intro bs ms
    rw [bsequence_drain, ih, bsequence_push_length]

theorem init_msequence_length (L : Generator) (bs : bsequence) (ms : msequence) :
    (bsequence_init_msequence L bs ms).1.length = bs.length :=
  bsequence_drain_length L _ bs ms

theorem create_msequence_of_switch (cfg : Inst) (K : Catalog) (L : Generator) (g m : Nat)
    (h : msequence_switch K g = some m) :
    ∃ fs : bsync_s,
      bsync_create_msequence cfg K L g = (create_msequence_calls cfg m (2 ^ m - 1), .ok fs) ∧
      fs.n = 2 ^ m - 1 ∧ fs.sync_i.length = 2 ^ m - 1 ∧ fs.sym_i.length = 2 ^ m - 1 ∧
      (∀ q, fs.sync_q = some q → q.length = 2 ^ m - 1) ∧
      (∀ q, fs.sym_q = some q → q.length = 2 ^ m - 1) ∧
      (cfg.TC_COMPLEX = true → ∃ q, fs.sync_q = some q) ∧
      (cfg.TI_COMPLEX = true → ∃ q, fs.sym_q = some q) := by
  refine ⟨_, by simp only [bsync_create_msequence, h]; rfl, rfl, ?_, ?_, ?_, ?_, ?_, ?_⟩
  · simp [init_msequence_length, bsequence_create, msequence_get_length, msequence_create]
  · simp [bsequence_create, msequence_get_length, msequence_create]
  · intro q hq
    cases hc : cfg.TC_COMPLEX <;> simp [hc] at hq
    subst hq
    simp [init_msequence_length, bsequence_create, msequence_get_length, msequence_create]
  · intro q hq
    cases hc : cfg.TI_COMPLEX <;> simp [hc] at hq
    subst hq
    simp [bsequence_create, msequence_get_length, msequence_create]
  · intro hc; simp [hc]
  · intro hc; simp [hc]

theorem switch_eq_labels (K : Catalog) (g : Nat) :
    msequence_switch K g = switch_labels K.codes 2 g := rfl

theorem switch_labels_none (cs : List Nat) :
    ∀ (m g : Nat), switch_labels cs m g = none ↔ g ∉ cs := by
  induction cs with
  | nil => intro m g; simp [switch_labels]
  | cons c rest ih =>
    intro m g
    by_cases h : g = c
    · simp [switch_labels, h]
    · simp [switch_labels, h, ih]

theorem switch_labels_index (cs : List Nat) :
    ∀ (m j : Nat), cs.Nodup → j < cs.length → switch_labels cs m (cs.getD j 0) = some (m + j) := by
  induction cs with
  | nil => intro m j _ hj; simp at hj
  | cons c rest ih =>
    intro m j hK hj
    rw [List.nodup_cons] at hK
    cases j with
    | zero => simp [switch_labels]
    | succ j =>
      have hj2 : j < rest.length := by simpa using hj
      have hmem : rest.getD j 0 ∈ rest := by
        rw [List.getD_eq_getElem _ _ hj2]; exact List.getElem_mem _
      have hne : rest.getD j 0 ≠ c := fun h => hK.1 (h ▸ hmem)
      simp only [switch_labels, List.getD_cons_succ, hne, if_false]
      rw [ih (m + 1) j hK.2 hj2]
      congr 1; omega

theorem switch_of_index (K : Catalog) (hK : K.codes.Nodup) (j : Nat) (hj : j < 11) :
    msequence_switch K (K.codes.getD j 0) = some (j + 2) := by
  rw [switch_eq_labels, switch_labels_index K.codes 2 j hK (by simpa [Catalog.codes] using hj),
    Nat.add_comm]

/-- C8: for each of the eleven catalog codes `N3, N7, ..., N4095` (distinct, as
`case` labels are), `create_msequence` selects the order `m = 2, 3, ..., 12`
respectively, creates the generator with that order, and returns a correlator whose
length `n` and whose every rail length equal `2^m - 1`, the generator length being
`2^m - 1`; in particular `N7` gives 7 and `N1023` gives 1023. -/
theorem create_msequence_length_table (cfg : Inst) (K : Catalog) (L : Generator)
    (hK : K.codes.Nodup) :
    (∀ j : Nat, j < 11 →
      ∃ fs : bsync_s,
        msequence_switch K (K.codes.getD j 0) = some (j + 2) ∧
        (bsync_create_msequence cfg K L (K.codes.getD j 0)).1.head?
          = some (Call.msequence_create (j + 2)) ∧
        (bsync_create_msequence cfg K L (K.codes.getD j 0)).2 = .ok fs ∧
        fs.n = 2 ^ (j + 2) - 1 ∧
        fs.sync_i.length = 2 ^ (j + 2) - 1 ∧ fs.sym_i.length = 2 ^ (j + 2) - 1 ∧
        (∀ q, fs.sync_q = some q → q.length = 2 ^ (j + 2) - 1) ∧
        (∀ q, fs.sym_q = some q → q.length = 2 ^ (j + 2) - 1) ∧
        (cfg.TC_COMPLEX = true → ∃ q, fs.sync_q = some q) ∧
        (cfg.TI_COMPLEX = true → ∃ q, fs.sym_q = some q)) ∧
    (∃ fs : bsync_s,
      (bsync_create_msequence cfg K L K.LIQUID_MSEQUENCE_N7).2 = .ok fs ∧ fs.n = 7) ∧
    (∃ fs : bsync_s,
      (bsync_create_msequence cfg K L K.LIQUID_MSEQUENCE_N1023).2 = .ok fs ∧ fs.n = 1023) := by
  have main : ∀ j : Nat, j < 11 →
      ∃ fs : bsync_s,
        msequence_switch K (K.codes.getD j 0) = some (j + 2) ∧
        (bsync_create_msequence cfg K L (K.codes.getD j 0)).1.head?
          = some (Call.msequence_create (j + 2)) ∧
        (bsync_create_msequence cfg K L (K.codes.getD j 0)).2 = .ok fs ∧
        fs.n = 2 ^ (j + 2) - 1 ∧
        fs.sync_i.length = 2 ^ (j + 2) - 1 ∧ fs.sym_i.length = 2 ^ (j + 2) - 1 ∧
        (∀ q, fs.sync_q = some q → q.length = 2 ^ (j + 2) - 1) ∧
        (∀ q, fs.sym_q = some q → q.length = 2 ^ (j + 2) - 1) ∧
        (cfg.TC_COMPLEX = true → ∃ q, fs.sync_q = some q) ∧
        (cfg.TI_COMPLEX = true → ∃ q, fs.sym_q = some q) := by
    intro j hj
    have hsw := switch_of_index K hK j hj
    obtain ⟨fs, hrun, h1, h2, h3, h4, h5, h6, h7⟩ :=
      create_msequence_of_switch cfg K L _ _ hsw
    refine ⟨fs, hsw, ?_, ?_, h1, h2, h3, h4, h5, h6, h7⟩
    · rw [hrun]; simp [create_msequence_calls]
    · rw [hrun]
  refine ⟨main, ?_, ?_⟩
  · obtain ⟨fs, _, _, hrun, hn, _⟩ := main 1 (by decide)
    exact ⟨fs, hrun, hn⟩
  · obtain ⟨fs, _, _, hrun, hn, _⟩ := main 8 (by decide)
    exact ⟨fs, hrun, hn⟩

theorem create_msequence_length_table_witness :
    ∃ fs : bsync_s,
      (bsync_create_msequence cccf sample_catalog sample_generator
        sample_catalog.LIQUID_MSEQUENCE_N7).2 = .ok fs ∧ fs.n = 7 :=
  (create_msequence_length_table cccf sample_catalog sample_generator
    (by decide)).2.1

/-- C9: `create_msequence` fails if and only if its argument is not one of the
eleven catalog codes; an out-of-catalog code yields no correlator, and the only
calls made are the error print and `exit`, so no generator or rail is created. -/
theorem create_msequence_fails_iff (cfg : Inst) (K : Catalog) (L : Generator) (g : Nat) :
    ((∃ e, (bsync_create_msequence cfg K L g).2 = .error e) ↔ g ∉ K.codes) ∧
    (g ∉ K.codes →
      bsync_create_msequence cfg K L g
        = ([Call.printf_unsupported g, Call.exit 0], .error (Fault.terminated 0))) ∧
    (g ∈ K.codes → ∃ fs, (bsync_create_msequence cfg K L g).2 = .ok fs) := by
  have hnone : g ∉ K.codes →
      bsync_create_msequence cfg K L g
        = ([Call.printf_unsupported g, Call.exit 0], .error (Fault.terminated 0)) := by
    intro hg
    have h : msequence_switch K g = none := by
      rw [switch_eq_labels, switch_labels_none]; exact hg
    simp only [bsync_create_msequence, h]
  have hsome : g ∈ K.codes → ∃ fs, (bsync_create_msequence cfg K L g).2 = .ok fs := by
    intro hg
    cases h : msequence_switch K g with
    | none =>
      rw [switch_eq_labels, switch_labels_none] at h
      exact absurd hg h
    | some m =>
      obtain ⟨fs, hrun, _⟩ := create_msequence_of_switch cfg K L g m h
      exact ⟨fs, by rw [hrun]⟩
  refine ⟨⟨?_, ?_⟩, hnone, hsome⟩
  · rintro ⟨e, he⟩ hg
    obtain ⟨fs, hfs⟩ := hsome hg
    rw [hfs] at he
    exact absurd he (by simp)
  · intro hg
    exact ⟨Fault.terminated 0, by rw [hnone hg]⟩

theorem create_msequence_fails_iff_witness :
    bsync_create_msequence cccf sample_catalog sample_generator 0
      = ([Call.printf_unsupported 0, Call.exit 0], .error (Fault.terminated 0)) :=
  (create_msequence_fails_iff cccf sample_catalog sample_generator 0).2.1 (by decide)

/-! ## Frame and cached value of one call -/

theorem correlate_inv (cfg : Inst) (fs fs1 : bsync_s) (sym : Cplx) (y : Option Cplx)
    (h : bsync_correlate cfg fs sym = .ok (fs1, y)) :
    ∃ (g : bsync_s) (r : Cplx),
      bsync_push_symbol cfg fs sym = .ok g ∧ bsync_dotprod cfg g = .ok r ∧
      fs1 = { g with rxy := some r } ∧ y = div_n r g.n ∧
      g.n = fs.n ∧ g.sync_i = fs.sync_i ∧ g.sync_q = fs.sync_q ∧
      g.sym_i = bsequence_push fs.sym_i (bit_re sym) := by
  unfold bsync_correlate at h
  cases hp : bsync_push_symbol cfg fs sym with
  | error e => simp [hp] at h
  | ok g =>
    cases hd : bsync_dotprod cfg g with
    | error e => simp [hp, hd] at h
    | ok r =>
      simp only [hp, hd, Except.ok.injEq, Prod.mk.injEq] at h
      refine ⟨g, r, rfl, hd, h.1.symm, h.2.symm, ?_⟩
      unfold bsync_push_symbol at hp
      cases hc : cfg.TI_COMPLEX with
      | false =>
        simp only [hc, Bool.false_eq_true, if_false, Except.ok.injEq] at hp
        subst hp; exact ⟨rfl, rfl, rfl, rfl⟩
      | true =>
        cases hq : fs.sym_q with
        | none => simp [hc, hq] at hp
        | some q =>
          simp only [hc, hq, if_true, Except.ok.injEq] at hp
          subst hp; exact ⟨rfl, rfl, rfl, rfl⟩

/-- C14: for every correlator state and every symbol, `correlate` leaves the
length `n` and the reference rails `sync_i` and `sync_q` unchanged, whatever it
does to `sym_i`, `sym_q` and the cached `rxy`; and it does return on every state
whose rails are those of a legal instantiation. -/
theorem correlate_pattern_immutable (cfg : Inst) (fs : bsync_s) (sym : Cplx) :
    (∀ (fs1 : bsync_s) (y : Option Cplx), bsync_correlate cfg fs sym = .ok (fs1, y) →
      fs1.n = fs.n ∧ fs1.sync_i = fs.sync_i ∧ fs1.sync_q = fs.sync_q) ∧
    (cfg.legal → fs.present cfg →
      ∃ (fs1 : bsync_s) (y : Option Cplx), bsync_correlate cfg fs sym = .ok (fs1, y) ∧
        fs1.n = fs.n ∧ fs1.sync_i = fs.sync_i ∧ fs1.sync_q = fs.sync_q) := by
  have frame : ∀ (fs1 : bsync_s) (y : Option Cplx),
      bsync_correlate cfg fs sym = .ok (fs1, y) →
      fs1.n = fs.n ∧ fs1.sync_i = fs.sync_i ∧ fs1.sync_q = fs.sync_q := by
    intro fs1 y h
    obtain ⟨g, r, _, _, rfl, _, h1, h2, h3, _⟩ := correlate_inv cfg fs fs1 sym y h
    exact ⟨h1, h2, h3⟩
  refine ⟨frame, fun hl hp => ?_⟩
  obtain ⟨r, _, hstep⟩ := correlate_step cfg hl fs sym hp
  exact ⟨_, _, hstep, frame _ _ hstep⟩

theorem correlate_pattern_immutable_witness :
    ∃ (fs1 : bsync_s) (y : Option Cplx),
      bsync_correlate cccf state_cccf_one ⟨-1, 1⟩ = .ok (fs1, y) ∧
      fs1.n = state_cccf_one.n ∧ fs1.sync_i = state_cccf_one.sync_i ∧
      fs1.sync_q = state_cccf_one.sync_q :=
  (correlate_pattern_immutable cccf state_cccf_one ⟨-1, 1⟩).2 legal_cccf
    ⟨fun _ => ⟨[true], rfl⟩, fun _ => ⟨[false], rfl⟩⟩

/-- C15 (as stated, refuted): the real-real correlator made from `[1, 1]`, after the
symbols `1, 1`, has cached `rxy = 2` while the second call returned `1`. -/
theorem cached_value_differs :
    ∃ fs0 fs : bsync_s,
      bsync_create rrrf 2 [⟨1, 0⟩, ⟨1, 0⟩] = .ok fs0 ∧
      bsync_correlate_all rrrf fs0 [⟨1, 0⟩, ⟨1, 0⟩] = .ok (fs, [some ⟨0, 0⟩, some ⟨1, 0⟩]) ∧
      fs.rxy = some ⟨2, 0⟩ ∧ fs.rxy ≠ some ⟨1, 0⟩ := by
  refine ⟨⟨2, [true, true], none, [false, false], none, none⟩,
    ⟨2, [true, true], none, [true, true], none, some ⟨2, 0⟩⟩, ?_, ?_, rfl, ?_⟩
  · simp [bsync_create, bsync_create_loop, bsequence_create, bsequence_push, bit_re, rrrf,
      List.replicate]
  · simp [bsync_correlate_all, bsync_correlate, bsync_push_symbol, bsync_dotprod, div_n,
      bsequence_push, bsequence_correlate, bit_re, rrrf]
  · simp

/-- C15 (amended): after every `correlate` call on a correlator of length `n > 0`,
the cached `rxy` is the un-normalised statistic, and the value returned through the
output argument is that cached value divided by `n`. -/
theorem cached_value_amended (cfg : Inst) (fs : bsync_s) (sym : Cplx)
    (hl : cfg.legal) (hp : fs.present cfg) (hn : 0 < fs.n) :
    ∃ (fs1 : bsync_s) (r : Cplx),
      bsync_correlate cfg fs sym = .ok (fs1, some ⟨r.re / fs.n, r.im / fs.n⟩) ∧
      fs1.rxy = some r ∧ bsync_dotprod cfg fs1 = .ok r := by
  have h0 : fs.n ≠ 0 := by omega
  obtain ⟨r, hr, hstep⟩ := correlate_step cfg hl fs sym hp
  refine ⟨{ fs.pushed cfg sym with rxy := some r }, r, ?_, rfl, hr⟩
  rw [hstep]
  simp [div_n, h0]

theorem cached_value_amended_witness :
    ∃ (fs1 : bsync_s) (r : Cplx),
      bsync_correlate rrrf state_rrrf_two ⟨1, 0⟩
        = .ok (fs1, some ⟨r.re / state_rrrf_two.n, r.im / state_rrrf_two.n⟩) ∧
      fs1.rxy = some r ∧ bsync_dotprod rrrf fs1 = .ok r :=
  cached_value_amended rrrf state_rrrf_two ⟨1, 0⟩ legal_rrrf
    ⟨fun h => by simp [rrrf] at h, fun h => by simp [rrrf] at h⟩ (by decide)

/-! ## Generator path: identical rails -/

theorem bsequence_drain_order (L : Generator) :
    ∀ (k : Nat) (bs : bsequence) (ms : msequence), (bsequence_drain L k bs ms).2.m = ms.m := by
  intro k
  induction k with
  | zero => intro bs ms; rfl
  | succ k ih =>
    intro bs ms
    rw [bsequence_drain, ih]
    rfl

theorem reset_after_init (L : Generator) (bs : bsequence) (ms : msequence) :
    msequence_reset L (bsequence_init_msequence L bs ms).2 = msequence_reset L ms := by
  simp only [msequence_reset, bsequence_init_msequence, bsequence_drain_order]

theorem switch_labels_range (cs : List Nat) :
    ∀ (m0 g m : Nat), switch_labels cs m0 g = some m → m0 ≤ m ∧ m < m0 + cs.length := by
  induction cs with
  | nil => intro m0 g m h; simp [switch_labels] at h
  | cons c rest ih =>
    intro m0 g m h
    by_cases hg : g = c
    · simp only [switch_labels, hg, if_true, Option.some.injEq] at h
      subst h; simp
    · simp only [switch_labels, hg, if_false] at h
      have := ih (m0 + 1) g m h
      simp only [List.length_cons]
      omega

theorem switch_order_range (K : Catalog) (g m : Nat) (h : msequence_switch K g = some m) :
    2 ≤ m ∧ m ≤ 12 := by
  rw [switch_eq_labels] at h
  have := switch_labels_range K.codes 2 g m h
  simp only [Catalog.codes, List.length_cons, List.length_nil] at this
  omega

theorem create_msequence_rails (cfg : Inst) (K : Catalog) (L : Generator) (g m : Nat)
    (h : msequence_switch K g = some m) :
    ∃ fs : bsync_s,
      bsync_create_msequence cfg K L g = (create_msequence_calls cfg m (2 ^ m - 1), .ok fs) ∧
      fs.n = 2 ^ m - 1 ∧ 0 < fs.n ∧
      fs.sync_i = msequence_rail L m ∧ fs.sync_i.length = fs.n ∧
      fs.sync_q = (if cfg.TC_COMPLEX then some (msequence_rail L m) else none) ∧
      fs.sym_i = bsequence_create fs.n ∧
      fs.sym_q = (if cfg.TI_COMPLEX then some (bsequence_create fs.n) else none) ∧
      fs.rxy = none ∧ fs.present cfg := by
  have hm := (switch_order_range K g m h).1
  have hpos : 0 < 2 ^ m - 1 := by
    have : 2 ^ 2 ≤ 2 ^ m := Nat.pow_le_pow_right (by decide) hm
    omega
  refine ⟨_, by simp only [bsync_create_msequence, h]; rfl, rfl, hpos, rfl, ?_, ?_, rfl, rfl,
    rfl, ⟨?_, ?_⟩⟩
  · simp [init_msequence_length, bsequence_create, msequence_get_length, msequence_create]
  · simp only [reset_after_init]; rfl
  · intro hc; simp [hc]
  · intro hc; simp [hc]

theorem switch_of_mem (K : Catalog) (g : Nat) (hg : g ∈ K.codes) :
    ∃ m, msequence_switch K g = some m := by
  cases h : msequence_switch K g with
  | none =>
    rw [switch_eq_labels, switch_labels_none] at h
    exact absurd hg h
  | some m => exact ⟨m, rfl⟩

/-- C13: for every catalog code, `create_msequence` creates one generator and resets
it before filling each rail, so for a complex pattern the quadrature reference rail
is bit-identical to the in-phase one; the rail is a fixed function of the generator
and the order, so a second call with the same code (in any instantiation) yields
bit-identical reference rails. -/
theorem create_msequence_identical_rails (cfg : Inst) (K : Catalog) (L : Generator) (g : Nat)
    (hg : g ∈ K.codes) :
    ∃ (m : Nat) (fs : bsync_s),
      msequence_switch K g = some m ∧
      (bsync_create_msequence cfg K L g).2 = .ok fs ∧
      fs.sync_i = msequence_rail L m ∧
      (cfg.TC_COMPLEX = true →
        fs.sync_q = some fs.sync_i ∧
        (bsync_create_msequence cfg K L g).1 =
          [Call.msequence_create m, Call.malloc, Call.msequence_get_length,
           Call.bsequence_create (2 ^ m - 1), Call.bsequence_create (2 ^ m - 1),
           Call.bsequence_create (2 ^ m - 1)]
          ++ (if cfg.TI_COMPLEX then [Call.bsequence_create (2 ^ m - 1)] else [])
          ++ [Call.msequence_reset, Call.bsequence_init_msequence,
              Call.msequence_reset, Call.bsequence_init_msequence,
              Call.msequence_destroy]) ∧
      (∀ cfg2 : Inst, ∃ fs2 : bsync_s,
        (bsync_create_msequence cfg2 K L g).2 = .ok fs2 ∧
        fs2.sync_i = fs.sync_i ∧
        (cfg2.TC_COMPLEX = true → fs2.sync_q = some fs.sync_i)) := by
  obtain ⟨m, hm⟩ := switch_of_mem K g hg
  obtain ⟨fs, hrun, _, _, hsi, _, hsq, _⟩ := create_msequence_rails cfg K L g m hm
  refine ⟨m, fs, hm, by rw [hrun], hsi, ?_, ?_⟩
  · intro hc
    refine ⟨by rw [hsq, hsi]; simp [hc], ?_⟩
    rw [hrun]
    simp [create_msequence_calls, hc]
  · intro cfg2
    obtain ⟨fs2, hrun2, _, _, hsi2, _, hsq2, _⟩ := create_msequence_rails cfg2 K L g m hm
    refine ⟨fs2, by rw [hrun2], by rw [hsi2, hsi], ?_⟩
    intro hc
    rw [hsq2, hsi]; simp [hc]

theorem create_msequence_identical_rails_witness :
    ∃ (m : Nat) (fs : bsync_s),
      msequence_switch sample_catalog 7 = some m ∧
      (bsync_create_msequence cccf sample_catalog sample_generator 7).2 = .ok fs ∧
      fs.sync_i = msequence_rail sample_generator m ∧
      (cccf.TC_COMPLEX = true →
        fs.sync_q = some fs.sync_i ∧
        (bsync_create_msequence cccf sample_catalog sample_generator 7).1 =
          [Call.msequence_create m, Call.malloc, Call.msequence_get_length,
           Call.bsequence_create (2 ^ m - 1), Call.bsequence_create (2 ^ m - 1),
           Call.bsequence_create (2 ^ m - 1)]
          ++ (if cccf.TI_COMPLEX then [Call.bsequence_create (2 ^ m - 1)] else [])
          ++ [Call.msequence_reset, Call.bsequence_init_msequence,
              Call.msequence_reset, Call.bsequence_init_msequence,
              Call.msequence_destroy]) ∧
      (∀ cfg2 : Inst, ∃ fs2 : bsync_s,
        (bsync_create_msequence cfg2 sample_catalog sample_generator 7).2 = .ok fs2 ∧
        fs2.sync_i = fs.sync_i ∧
        (cfg2.TC_COMPLEX = true → fs2.sync_q = some fs.sync_i)) :=
  create_msequence_identical_rails cccf sample_catalog sample_generator 7 (by decide)

/-! ## Complex-complex statistic: alignment and extreme value -/

theorem bsequence_correlate_flip (a b : bsequence) :
    bsequence_correlate a (b.map (fun x => !x)) = -bsequence_correlate a b := by
  induction a generalizing b with
  | nil => simp [bsequence_correlate]
  | cons x rest ih =>
    cases b with
    | nil => simp [bsequence_correlate]
    | cons y restb =>
      have h := ih restb
      simp only [bsequence_correlate, List.map_cons, List.zipWith_cons_cons,
        List.sum_cons] at h ⊢
      rw [h]
      cases x <;> cases y <;> simp <;> ring

/-- C17: in the complex-complex instantiation, whenever a call of `correlate`
leaves the received rails equal to the reference rails (`n > 0`), it returns a
value with real part exactly 0 and imaginary part `2 corr(sync_i,sync_q)/n`;
for a generator-built pattern, whose reference rails are bit-identical, the
value returned at alignment is exactly `0 + 2i`. -/
theorem correlate_cccf_aligned :
    (∀ (fs fs1 : bsync_s) (sym : Cplx) (y : Option Cplx) (sq : bsequence),
      bsync_correlate cccf fs sym = .ok (fs1, y) →
      0 < fs1.n → fs1.sync_i.length = fs1.n → fs1.sync_q = some sq → sq.length = fs1.n →
      fs1.sym_i = fs1.sync_i → fs1.sym_q = fs1.sync_q →
      y = some ⟨0, 2 * (bsequence_correlate fs1.sync_i sq : ℚ) / fs1.n⟩) ∧
    (∀ (K : Catalog) (L : Generator) (g : Nat) (syms : List Cplx), g ∈ K.codes →
      ∃ fs0 : bsync_s,
        (bsync_create_msequence cccf K L g).2 = .ok fs0 ∧
        fs0.sync_q = some fs0.sync_i ∧
        ∀ (fs1 : bsync_s) (ys : List (Option Cplx)),
          bsync_correlate_all cccf fs0 syms = .ok (fs1, ys) → syms ≠ [] →
          fs1.sym_i = fs1.sync_i → fs1.sym_q = fs1.sync_q →
          ys.getLast? = some (some ⟨0, 2⟩)) := by
  have aligned : ∀ (g : bsync_s) (r : Cplx) (sq : bsequence),
      bsync_dotprod cccf g = .ok r → 0 < g.n → g.sync_i.length = g.n →
      g.sync_q = some sq → sq.length = g.n → g.sym_i = g.sync_i → g.sym_q = g.sync_q →
      div_n r g.n = some ⟨0, 2 * (bsequence_correlate g.sync_i sq : ℚ) / g.n⟩ := by
    intro g r sq hr hn hlen hsq hlq hmi hmq
    have h0 : g.n ≠ 0 := by omega
    rw [hsq] at hmq
    simp only [bsync_dotprod, cccf, Bool.and_self, if_true, hsq, hmq, hmi,
      Except.ok.injEq] at hr
    rw [← hr, bsequence_correlate_self, bsequence_correlate_self,
      bsequence_correlate_comm sq g.sync_i, hlen, hlq]
    simp [div_n, h0]
    ring
  constructor
  · intro fs fs1 sym y sq h hn hlen hsq hlq hmi hmq
    obtain ⟨g, r, _, hd, rfl, rfl, _⟩ := correlate_inv cccf fs fs1 sym y h
    exact aligned g r sq hd hn hlen hsq hlq hmi hmq
  · intro K L g syms hg
    obtain ⟨m, hm⟩ := switch_of_mem K g hg
    obtain ⟨fs0, hrun, _, hpos, hsi, hlen, hsq, _, _, _, hp⟩ :=
      create_msequence_rails cccf K L g m hm
    have hsq0 : fs0.sync_q = some fs0.sync_i := by rw [hsq, hsi]; rfl
    refine ⟨fs0, by rw [hrun], hsq0, ?_⟩
    intro fs1 ys hall hne hmi hmq
    obtain ⟨fs2, ys2, hall2, _, _, hn2, hsi2, hsq2, _, _, _, hlast, _⟩ :=
      correlate_all_spec cccf legal_cccf syms fs0 hp
    rw [hall] at hall2
    obtain ⟨rfl, rfl⟩ := Prod.mk.inj (Except.ok.inj hall2)
    obtain ⟨r, hr, _, hy⟩ := hlast hne
    have hsq1 : fs1.sync_q = some fs1.sync_i := by rw [hsq2, hsi2, hsq0]
    have hlen1 : fs1.sync_i.length = fs1.n := by rw [hsi2, hn2, hlen]
    have hpos1 : 0 < fs1.n := by rw [hn2]; exact hpos
    have hq0 : (fs1.n : ℚ) ≠ 0 := by exact_mod_cast (by omega : fs1.n ≠ 0)
    have := aligned fs1 r fs1.sync_i hr hpos1 hlen1 hsq1 hlen1 hmi hmq
    rw [hy, ← hn2, this, bsequence_correlate_self, hlen1]
    congr 2
    field_simp

theorem correlate_cccf_aligned_witness :
    ∃ (fs0 fs1 : bsync_s) (ys : List (Option Cplx)),
      (bsync_create_msequence cccf sample_catalog sample_generator 7).2 = .ok fs0 ∧
      bsync_correlate_all cccf fs0 [⟨1, 1⟩, ⟨-1, -1⟩, ⟨1, 1⟩] = .ok (fs1, ys) ∧
      fs1.sym_i = fs1.sync_i ∧ fs1.sym_q = fs1.sync_q ∧
      ys.getLast? = some (some ⟨0, 2⟩) := by
  obtain ⟨fs0, h0, _, hall⟩ :=
    correlate_cccf_aligned.2 sample_catalog sample_generator 7 [⟨1, 1⟩, ⟨-1, -1⟩, ⟨1, 1⟩]
      (by decide)
  have e0 : (bsync_create_msequence cccf sample_catalog sample_generator 7).2
      = .ok ⟨3, [true, false, true], some [true, false, true], [false, false, false],
          some [false, false, false], none⟩ := by
    simp [bsync_create_msequence, msequence_switch, sample_catalog, bsequence_init_msequence,
      bsequence_drain, msequence_get_length, msequence_create, msequence_reset,
      msequence_advance, sample_generator, bsequence_create, bsequence_push, List.replicate,
      cccf]
  rw [e0] at h0
  obtain rfl := Except.ok.inj h0
  have e1 : bsync_correlate_all cccf
      ⟨3, [true, false, true], some [true, false, true], [false, false, false],
        some [false, false, false], none⟩ [⟨1, 1⟩, ⟨-1, -1⟩, ⟨1, 1⟩]
      = .ok (⟨3, [true, false, true], some [true, false, true], [true, false, true],
          some [true, false, true], some ⟨0, 6⟩⟩,
          [some ⟨0, 2 / 3⟩, some ⟨0, -2⟩, some ⟨0, 2⟩]) := by
    simp [bsync_correlate_all, bsync_correlate, bsync_push_symbol, bsync_dotprod, div_n,
      bsequence_push, bsequence_correlate, bit_re, bit_im, cccf]
    norm_num
  exact ⟨_, _, _, e0, e1, rfl, rfl, hall _ _ e1 (by simp) rfl rfl⟩

/-! ## Runs on a fresh correlator -/

theorem fresh_run_spec (cfg : Inst) (hl : cfg.legal) (n : Nat) (w ss : List Cplx)
    (hw : w.length = n) :
    ∃ (f0 f1 : bsync_s) (os : List (Option Cplx)),
      bsync_create cfg n w = .ok f0 ∧
      bsync_correlate_all cfg f0 ss = .ok (f1, os) ∧
      os.length = ss.length ∧ f1.n = n ∧
      f1.sync_i = w.map bit_re ∧
      f1.sync_q = (if cfg.TC_COMPLEX then some (w.map bit_im) else none) ∧
      f1.sym_i = (List.replicate n false ++ ss.map bit_re).drop ss.length ∧
      f1.sym_q = (if cfg.TI_COMPLEX then
        some ((List.replicate n false ++ ss.map bit_im).drop ss.length) else none) ∧
      f1.present cfg ∧ f1.sized ∧
      (ss ≠ [] → ∃ r, bsync_dotprod cfg f1 = .ok r ∧ f1.rxy = some r ∧
        os.getLast? = some (div_n r n)) ∧
      (ss = [] → f1.rxy = none) ∧
      (∀ y ∈ os, ∃ fsk r, fsk.sized ∧ fsk.n = n ∧ bsync_dotprod cfg fsk = .ok r ∧
        y = div_n r n) := by
  obtain ⟨f0, hcreate, hp0, hs0, hn0, hsi0, hsq0, hmi0, hmq0, hrxy0⟩ :=
    create_present_sized cfg n w (le_of_eq hw.symm)
  obtain ⟨f1, os, hall, hp1, hs1, hn1, hsi1, hsq1, hmi1, hmq1, hlen, hlast, hys⟩ :=
    correlate_all_spec cfg hl ss f0 hp0
  have htake : w.take n = w := by rw [← hw, List.take_length]
  rw [htake] at hsi0 hsq0
  refine ⟨f0, f1, os, hcreate, hall, hlen, hn1.trans hn0, by rw [hsi1, hsi0],
    by rw [hsq1, hsq0], ?_, ?_, hp1, hs1 hs0, ?_, ?_, ?_⟩
  · rw [hmi1, hmi0, foldl_push_eq]; simp [bsequence_create]
  · rw [hmq1, hmq0]
    cases hc : cfg.TI_COMPLEX <;> simp [foldl_push_eq, bsequence_create]
  · intro hne
    obtain ⟨r, hr, hrxy, hy⟩ := hlast hne
    exact ⟨r, hr, hrxy, by rw [hy, hn0]⟩
  · intro hnil
    subst hnil
    simp only [bsync_correlate_all, Except.ok.injEq, Prod.mk.injEq] at hall
    rw [← hall.1]; exact hrxy0
  · intro y hy
    obtain ⟨fsk, r, _, hsk, hnk, _, _, hr, rfl⟩ := hys y hy
    exact ⟨fsk, r, hsk hs0, hnk.trans hn0, hr, by rw [hn0]⟩

/-- C16: in the complex-complex instantiation, for every pattern of length `n > 0`
and every symbol stream, the un-normalised statistic
`rxy = (a - d) + i(b + c)` satisfies `(a - d)^2 + (b + c)^2 <= (2n)^2` and every
returned value has squared magnitude at most 4; the bound is attained: pushing a
stream whose in-phase bits are those of the pattern and whose quadrature bits are
the complement of the pattern's returns exactly `2 + 0i`. -/
theorem cccf_statistic_bound (n : Nat) (v syms : List Cplx) (hn : 0 < n)
    (hv : v.length = n) :
    (∃ (fs0 fs : bsync_s) (ys : List (Option Cplx)),
      bsync_create cccf n v = .ok fs0 ∧
      bsync_correlate_all cccf fs0 syms = .ok (fs, ys) ∧
      (∀ y ∈ ys, ∃ z, y = some z ∧ z.re * z.re + z.im * z.im ≤ 4) ∧
      (∀ r, fs.rxy = some r →
        ∃ sq mq, fs.sync_q = some sq ∧ fs.sym_q = some mq ∧
          r = ⟨(bsequence_correlate fs.sync_i fs.sym_i - bsequence_correlate sq mq : Int),
               (bsequence_correlate fs.sync_i mq + bsequence_correlate sq fs.sym_i : Int)⟩ ∧
          r.re * r.re + r.im * r.im ≤ (2 * (n : ℚ)) * (2 * n))) ∧
    (∀ w : List Cplx,
      w.map (fun x => decide (x.re > 0)) = v.map (fun x => decide (x.re > 0)) →
      w.map (fun x => decide (x.im > 0)) = v.map (fun x => !decide (x.im > 0)) →
      ∃ (fs0 fs : bsync_s) (ys : List (Option Cplx)),
        bsync_create cccf n v = .ok fs0 ∧
        bsync_correlate_all cccf fs0 w = .ok (fs, ys) ∧
        ys.getLast? = some (some ⟨2, 0⟩)) := by
  have h0 : n ≠ 0 := by omega
  have hq0 : (n : ℚ) ≠ 0 := by exact_mod_cast h0
  constructor
  · obtain ⟨fs0, fs, ys, hcreate, hall, _, hn1, _, hsq, _, hmq, _, hs, hlast, hnil, hys⟩ :=
      fresh_run_spec cccf legal_cccf n v syms hv
    refine ⟨fs0, fs, ys, hcreate, hall, ?_, ?_⟩
    · intro y hy
      obtain ⟨fsk, r, hsk, hnk, hr, rfl⟩ := hys y hy
      have hb := dotprod_bound_cccx fsk hsk r hr
      rw [hnk] at hb
      exact div_n_bound r n 4 hn hb
    · intro r hr
      cases syms with
      | nil =>
        rw [hnil rfl] at hr
        exact absurd hr (by simp)
      | cons s rest =>
        obtain ⟨r2, hr2, hrxy2, _⟩ := hlast (by simp)
        rw [hrxy2] at hr
        obtain rfl := Option.some.inj hr
        have hb := dotprod_bound_cccx fs hs r2 hr2
        rw [hn1] at hb
        refine ⟨_, _, hsq, hmq, ?_, ?_⟩
        · simp only [bsync_dotprod, cccf, Bool.and_self, if_true] at hr2
          rw [hsq, hmq] at hr2
          simpa using (Except.ok.inj hr2).symm
        · simp only [Cplx.normSq] at hb
          linarith
  · intro w hre him
    have hwlen : w.length = n := by
      have := congrArg List.length hre
      simpa [hv] using this
    have hne : w ≠ [] := by
      intro h; rw [h] at hwlen; simp at hwlen; omega
    obtain ⟨fs0, fs, ys, hcreate, hall, _, hn1, hsi, hsq, hmi, hmq, _, _, hlast, _, _⟩ :=
      fresh_run_spec cccf legal_cccf n v w hv
    refine ⟨fs0, fs, ys, hcreate, hall, ?_⟩
    obtain ⟨r, hr, _, hy⟩ := hlast hne
    have hwin (f : Cplx → Bool) :
        (List.replicate n false ++ w.map f).drop w.length = w.map f := by
      rw [hwlen]
      simp
    have e1 : fs.sym_i = v.map bit_re := by rw [hmi, hwin]; exact hre
    have e2 : fs.sym_q = some ((v.map bit_im).map (fun x => !x)) := by
      rw [hmq]
      simp only [cccf, if_true, hwin]
      congr 1
      rw [List.map_map]
      exact him
    have e3 : fs.sync_q = some (v.map bit_im) := by rw [hsq]; rfl
    simp only [bsync_dotprod, cccf, Bool.and_self, if_true, e2, e3, e1, hsi,
      Except.ok.injEq] at hr
    rw [hy, ← hr, bsequence_correlate_self, bsequence_correlate_flip,
      bsequence_correlate_flip, bsequence_correlate_self,
      bsequence_correlate_comm (v.map bit_im) (v.map bit_re)]
    simp [div_n, h0, hv]
    field_simp
    ring

theorem cccf_statistic_bound_witness :
    ∃ (fs0 fs : bsync_s) (ys : List (Option Cplx)),
      bsync_create cccf 1 [⟨1, -1⟩] = .ok fs0 ∧
      bsync_correlate_all cccf fs0 [⟨1, 1⟩] = .ok (fs, ys) ∧
      ys.getLast? = some (some ⟨2, 0⟩) :=
  (cccf_statistic_bound 1 [⟨1, -1⟩] [] (by decide) rfl).2 [⟨1, 1⟩]
    (by simp) (by simp)

/-! ## Single-bit perturbation -/

theorem bsequence_correlate_set_flip :
    ∀ (a : bsequence) (j : Nat), j < a.length →
      bsequence_correlate a (a.set j (!(a.getD j false))) = (a.length : Int) - 2 := by
  intro a
  induction a with
  | nil => intro j hj; simp at hj
  | cons x rest ih =>
    intro j hj
    cases j with
    | zero =>
      have h := bsequence_correlate_self rest
      simp only [bsequence_correlate, List.set_cons_zero, List.getD_cons_zero,
        List.zipWith_cons_cons, List.sum_cons, List.length_cons] at h ⊢
      rw [h]
      cases x <;> simp <;> omega
    | succ j =>
      have h := ih j (by simpa using hj)
      simp only [bsequence_correlate, List.set_cons_succ, List.getD_cons_succ,
        List.zipWith_cons_cons, List.sum_cons, List.length_cons] at h ⊢
      rw [h]
      simp
      omega

theorem window_full (n : Nat) (bits : List Bool) (h : bits.length = n) :
    (List.replicate n false ++ bits).drop bits.length = bits := by
  rw [h]; simp

theorem rerun_spec (cfg : Inst) (hl : cfg.legal) (n : Nat) (v w : List Cplx)
    (hv : v.length = n) (hw : w.length = n) :
    ∃ (fs0 fs1 fs2 : bsync_s) (ys1 ys2 : List (Option Cplx)),
      bsync_create cfg n v = .ok fs0 ∧
      bsync_correlate_all cfg fs0 v = .ok (fs1, ys1) ∧
      bsync_correlate_all cfg fs1 w = .ok (fs2, ys2) ∧
      ys2.length = n ∧ fs1.n = n ∧ fs2.n = n ∧
      fs1.sync_i = v.map bit_re ∧ fs2.sync_i = v.map bit_re ∧
      fs1.sync_q = (if cfg.TC_COMPLEX then some (v.map bit_im) else none) ∧
      fs2.sync_q = fs1.sync_q ∧
      fs1.sym_i = v.map bit_re ∧ fs2.sym_i = w.map bit_re ∧
      fs1.sym_q = (if cfg.TI_COMPLEX then some (v.map bit_im) else none) ∧
      fs2.sym_q = (if cfg.TI_COMPLEX then some (w.map bit_im) else none) ∧
      (w ≠ [] → ∃ r, bsync_dotprod cfg fs2 = .ok r ∧ ys2.getLast? = some (div_n r n)) := by
  obtain ⟨fs0, fs1, ys1, hcreate, hall1, _, hn1, hsi1, hsq1, hmi1, hmq1, hp1, hs1, _, _, _⟩ :=
    fresh_run_spec cfg hl n v v hv
  obtain ⟨fs2, ys2, hall2, _, _, hn2, hsi2, hsq2, hmi2, hmq2, hlen2, hlast2, _⟩ :=
    correlate_all_spec cfg hl w fs1 hp1
  have hwin1 (f : Cplx → Bool) :
      (List.replicate n false ++ v.map f).drop v.length = v.map f := by
    have := window_full n (v.map f) (by simpa using hv)
    simpa using this
  rw [hwin1] at hmi1
  simp only [hwin1] at hmq1
  have hfull (f : Cplx → Bool) :
      List.foldl bsequence_push (v.map bit_re) (w.map f) = w.map f :=
    foldl_push_full _ _ (by simp [hv, hw])
  have hfull2 (f : Cplx → Bool) :
      List.foldl bsequence_push (v.map bit_im) (w.map f) = w.map f :=
    foldl_push_full _ _ (by simp [hv, hw])
  refine ⟨fs0, fs1, fs2, ys1, ys2, hcreate, hall1, hall2, by rw [hlen2, hw], hn1,
    hn2.trans hn1, hsi1, hsi2.trans hsi1, hsq1, hsq2, hmi1, ?_, hmq1, ?_, ?_⟩
  · rw [hmi2, hmi1, hfull]
  · rw [hmq2, hmq1]
    cases hc : cfg.TI_COMPLEX <;> simp [hfull2]
  · intro hne
    obtain ⟨r, hr, _, hy⟩ := hlast2 hne
    exact ⟨r, hr, by rw [hy, hn1]⟩

/-- C12: for every pattern `v` of length `n >= 1`, after perfect alignment (received
rail equal to reference rail, elementary `corr = n`), pushing the `n` samples again
with the bit of one rail flipped in exactly one symbol `j` leaves, after the `n`-th
push, the elementary `corr` of that rail at exactly `n - 2` (the other rail stays
aligned), so that rail contributes `2/n` less to the normalised output; in the
real-real instantiation the value returned is `1 - 2/n`. -/
theorem single_bit_perturbation (cfg : Inst) (n j : Nat) (v w : List Cplx)
    (hl : cfg.legal) (hn : 1 ≤ n) (hv : v.length = n) (hw : w.length = n) (hj : j < n) :
    ∃ (fs0 fs1 fs2 : bsync_s) (ys1 ys2 : List (Option Cplx)),
      bsync_create cfg n v = .ok fs0 ∧
      bsync_correlate_all cfg fs0 v = .ok (fs1, ys1) ∧
      bsync_correlate_all cfg fs1 w = .ok (fs2, ys2) ∧
      ys2.length = n ∧
      fs1.sym_i = fs1.sync_i ∧ bsequence_correlate fs1.sync_i fs1.sym_i = n ∧
      (cfg.TC_COMPLEX = true → ∃ sq, fs1.sync_q = some sq ∧ fs1.sym_q = some sq ∧
        bsequence_correlate sq sq = n) ∧
      (w.map bit_re = (v.map bit_re).set j (!((v.map bit_re).getD j false)) →
        w.map bit_im = v.map bit_im →
        bsequence_correlate fs2.sync_i fs2.sym_i = (n : Int) - 2 ∧
        ((bsequence_correlate fs2.sync_i fs2.sym_i : Int) : ℚ) / n
          = ((bsequence_correlate fs1.sync_i fs1.sym_i : Int) : ℚ) / n - 2 / n ∧
        (cfg.TC_COMPLEX = true → fs2.sym_q = fs2.sync_q) ∧
        (cfg = rrrf → ys2.getLast? = some (some ⟨1 - 2 / (n : ℚ), 0⟩))) ∧
      (cfg.TC_COMPLEX = true →
        w.map bit_im = (v.map bit_im).set j (!((v.map bit_im).getD j false)) →
        w.map bit_re = v.map bit_re →
        ∃ sq mq, fs2.sync_q = some sq ∧ fs2.sym_q = some mq ∧ fs1.sym_q = some sq ∧
          bsequence_correlate sq mq = (n : Int) - 2 ∧
          ((bsequence_correlate sq mq : Int) : ℚ) / n
            = ((bsequence_correlate sq sq : Int) : ℚ) / n - 2 / n ∧
          fs2.sym_i = fs2.sync_i) := by
  have h0 : n ≠ 0 := by omega
  have hq0 : (n : ℚ) ≠ 0 := by exact_mod_cast h0
  have hne : w ≠ [] := by
    intro h; rw [h] at hw; simp at hw; omega
  obtain ⟨fs0, fs1, fs2, ys1, ys2, hcreate, hall1, hall2, hlen2, hn1, hn2, hsi1, hsi2, hsq1,
    hsq2, hmi1, hmi2, hmq1, hmq2, hlast⟩ := rerun_spec cfg hl n v w hv hw
  have hlen (f : Cplx → Bool) : (v.map f).length = n := by simp [hv]
  have hdrop (a b : Int) (hb : b = (n : Int)) (ha : a = (n : Int) - 2) :
      (a : ℚ) / n = (b : ℚ) / n - 2 / n := by
    rw [ha, hb]; push_cast; ring
  have hself_i : bsequence_correlate fs1.sync_i fs1.sym_i = n := by
    rw [hmi1, hsi1, bsequence_correlate_self, hlen]
  refine ⟨fs0, fs1, fs2, ys1, ys2, hcreate, hall1, hall2, hlen2, by rw [hmi1, hsi1], hself_i,
    ?_, ?_, ?_⟩
  · intro hc
    refine ⟨v.map bit_im, by rw [hsq1]; simp [hc], by rw [hmq1]; simp [hl hc], ?_⟩
    rw [bsequence_correlate_self, hlen]
  · intro hre him
    have hflip : bsequence_correlate fs2.sync_i fs2.sym_i = (n : Int) - 2 := by
      rw [hsi2, hmi2, hre, bsequence_correlate_set_flip _ j (by rw [hlen]; exact hj), hlen]
    refine ⟨hflip, hdrop _ _ hself_i hflip, ?_, ?_⟩
    · intro hc
      rw [hmq2, hsq2, hsq1, him]; simp [hc, hl hc]
    · intro hcfg
      subst hcfg
      obtain ⟨r, hr, hy⟩ := hlast hne
      simp only [bsync_dotprod, rrrf, Bool.false_and, Bool.false_eq_true, if_false,
        Except.ok.injEq] at hr
      rw [hy, ← hr, hflip]
      simp [div_n, h0]
      field_simp
  · intro hc him hre
    have hflip : bsequence_correlate (v.map bit_im) (w.map bit_im) = (n : Int) - 2 := by
      rw [him, bsequence_correlate_set_flip _ j (by rw [hlen]; exact hj), hlen]
    have hself : bsequence_correlate (v.map bit_im) (v.map bit_im) = (n : Int) := by
      rw [bsequence_correlate_self, hlen]
    refine ⟨v.map bit_im, w.map bit_im, by rw [hsq2, hsq1]; simp [hc],
      by rw [hmq2]; simp [hl hc], by rw [hmq1]; simp [hl hc], hflip,
      hdrop _ _ hself hflip, by rw [hmi2, hsi2, hre]⟩

theorem single_bit_perturbation_witness :
    ∃ (fs0 fs1 fs2 : bsync_s) (ys1 ys2 : List (Option Cplx)),
      bsync_create rrrf 8 scenario_pattern = .ok fs0 ∧
      bsync_correlate_all rrrf fs0 scenario_pattern = .ok (fs1, ys1) ∧
      bsync_correlate_all rrrf fs1 scenario_second = .ok (fs2, ys2) ∧
      bsequence_correlate fs1.sync_i fs1.sym_i = 8 ∧
      bsequence_correlate fs2.sync_i fs2.sym_i = 8 - 2 ∧
      ys2.getLast? = some (some ⟨1 - 2 / ((8 : Nat) : ℚ), 0⟩) := by
  obtain ⟨fs0, fs1, fs2, ys1, ys2, h1, h2, h3, _, _, h4, _, h5, _⟩ :=
    single_bit_perturbation rrrf 8 1 scenario_pattern scenario_second legal_rrrf
      (by decide) rfl rfl (by decide)
  have h6 := h5
    (by simp [scenario_pattern, scenario_second, real_sample, bit_re])
    (by simp [scenario_pattern, scenario_second, real_sample, bit_im])
  exact ⟨fs0, fs1, fs2, ys1, ys2, h1, h2, h3, h4, h6.1, h6.2.2.2 rfl⟩

/-! ## Rotation by a quarter turn -/

theorem bit_re_mulI (s : Cplx) (h : s.im ≠ 0) : bit_re s.mulI = !bit_im s := by
  simp only [bit_re, bit_im, Cplx.mulI]
  rcases lt_or_gt_of_ne h with h1 | h1
  · have h2 : ¬ (s.im > 0) := not_lt.2 (le_of_lt h1)
    have h3 : -s.im > 0 := by linarith
    simp [h2, h3]
  · have h3 : ¬ (-s.im > 0) := by
      intro h4; linarith
    simp [h1, h3]

theorem bit_im_mulI (s : Cplx) : bit_im s.mulI = bit_re s := rfl

theorem bit_re_neg (s : Cplx) (h : s.re ≠ 0) : bit_re s.neg = !bit_re s := by
  simp only [bit_re, Cplx.neg]
  rcases lt_or_gt_of_ne h with h1 | h1
  · have h2 : ¬ (s.re > 0) := not_lt.2 (le_of_lt h1)
    have h3 : -s.re > 0 := by linarith
    simp [h2, h3]
  · have h3 : ¬ (-s.re > 0) := by
      intro h4; linarith
    simp [h1, h3]

theorem bit_im_neg (s : Cplx) (h : s.im ≠ 0) : bit_im s.neg = !bit_im s := by
  simp only [bit_im, Cplx.neg]
  rcases lt_or_gt_of_ne h with h1 | h1
  · have h2 : ¬ (s.im > 0) := not_lt.2 (le_of_lt h1)
    have h3 : -s.im > 0 := by linarith
    simp [h2, h3]
  · have h3 : ¬ (-s.im > 0) := by
      intro h4; linarith
    simp [h1, h3]

theorem cccf_final_output (n : Nat) (v ss : List Cplx) (hn : 0 < n) (hv : v.length = n)
    (hk : n ≤ ss.length) :
    ∃ (f0 f1 : bsync_s) (os : List (Option Cplx)),
      bsync_create cccf n v = .ok f0 ∧
      bsync_correlate_all cccf f0 ss = .ok (f1, os) ∧
      os.getLast? = some (some
        ⟨((bsequence_correlate (v.map bit_re) ((ss.drop (ss.length - n)).map bit_re)
            - bsequence_correlate (v.map bit_im) ((ss.drop (ss.length - n)).map bit_im)
            : Int) : ℚ) / n,
         ((bsequence_correlate (v.map bit_re) ((ss.drop (ss.length - n)).map bit_im)
            + bsequence_correlate (v.map bit_im) ((ss.drop (ss.length - n)).map bit_re)
            : Int) : ℚ) / n⟩) := by
  have h0 : n ≠ 0 := by omega
  have hne : ss ≠ [] := by
    intro h; rw [h] at hk; simp at hk; omega
  obtain ⟨f0, f1, os, hcreate, hall, _, _, hsi, hsq, hmi, hmq, _, _, hlast, _, _⟩ :=
    fresh_run_spec cccf legal_cccf n v ss hv
  refine ⟨f0, f1, os, hcreate, hall, ?_⟩
  obtain ⟨r, hr, _, hy⟩ := hlast hne
  have hwin (f : Cplx → Bool) :
      (List.replicate n false ++ ss.map f).drop ss.length
        = (ss.drop (ss.length - n)).map f := by
    have := window_of_long n (ss.map f) (by simpa using hk)
    simpa [List.map_drop] using this
  rw [hwin] at hmi
  simp only [hwin, cccf, if_true] at hmq hsq
  simp only [bsync_dotprod, cccf, Bool.and_self, if_true, hsq, hmq, hsi, hmi,
    Except.ok.injEq] at hr
  rw [hy, ← hr]
  simp [div_n, h0]

/-- C18: in the complex-complex instantiation, for every pattern of length `n > 0`
and every stream of at least `n` symbols whose last `n` symbols have non-zero real
and imaginary parts, pushing the stream with every symbol multiplied by `i` into a
fresh correlator returns, at the last push, `i` times the value returned for the
original stream; negating every symbol (the rotation applied twice) negates it. -/
theorem rotation_equivariance (n : Nat) (v syms : List Cplx) (hn : 0 < n)
    (hv : v.length = n) (hk : n ≤ syms.length)
    (hnz : ∀ s ∈ syms.drop (syms.length - n), s.re ≠ 0 ∧ s.im ≠ 0) :
    ∃ (fs0 fs gs hs : bsync_s) (ys zs ws : List (Option Cplx)) (y : Cplx),
      bsync_create cccf n v = .ok fs0 ∧
      bsync_correlate_all cccf fs0 syms = .ok (fs, ys) ∧
      ys.getLast? = some (some y) ∧
      bsync_correlate_all cccf fs0 (syms.map Cplx.mulI) = .ok (gs, zs) ∧
      zs.getLast? = some (some y.mulI) ∧
      bsync_correlate_all cccf fs0 (syms.map (fun s => s.mulI.mulI)) = .ok (hs, ws) ∧
      ws.getLast? = some (some y.neg) ∧
      (∀ s : Cplx, s.mulI.mulI = s.neg) := by
  have hmm : ∀ s : Cplx, s.mulI.mulI = s.neg := by
    intro s; simp [Cplx.mulI, Cplx.neg]
  have hmm2 : (fun s : Cplx => s.mulI.mulI) = Cplx.neg := funext hmm
  rw [hmm2]
  obtain ⟨fs0, fs, ys, hcreate, hall, hy⟩ := cccf_final_output n v syms hn hv hk
  obtain ⟨g0, gs, zs, hcreate2, hall2, hz⟩ :=
    cccf_final_output n v (syms.map Cplx.mulI) hn hv (by simpa using hk)
  obtain ⟨h0, hs, ws, hcreate3, hall3, hw⟩ :=
    cccf_final_output n v (syms.map Cplx.neg) hn hv (by simpa using hk)
  rw [hcreate] at hcreate2 hcreate3
  obtain rfl := Except.ok.inj hcreate2
  obtain rfl := Except.ok.inj hcreate3
  refine ⟨fs0, fs, gs, hs, ys, zs, ws, _, hcreate, hall, hy, hall2, ?_, hall3, ?_, hmm⟩
  · rw [hz]
    have e1 : ((syms.map Cplx.mulI).drop ((syms.map Cplx.mulI).length - n)).map bit_re
        = ((syms.drop (syms.length - n)).map bit_im).map (fun x => !x) := by
      rw [List.length_map, ← List.map_drop, List.map_map, List.map_map]
      apply List.map_congr_left
      intro s hs
      exact bit_re_mulI s (hnz s hs).2
    have e2 : ((syms.map Cplx.mulI).drop ((syms.map Cplx.mulI).length - n)).map bit_im
        = (syms.drop (syms.length - n)).map bit_re := by
      rw [List.length_map, ← List.map_drop, List.map_map]
      rfl
    rw [e1, e2, bsequence_correlate_flip, bsequence_correlate_flip]
    simp only [Cplx.mulI, Option.some.injEq, Cplx.mk.injEq]
    constructor
    · push_cast; ring
    · push_cast; ring
  · rw [hw]
    have e1 : ((syms.map Cplx.neg).drop ((syms.map Cplx.neg).length - n)).map bit_re
        = ((syms.drop (syms.length - n)).map bit_re).map (fun x => !x) := by
      rw [List.length_map, ← List.map_drop, List.map_map, List.map_map]
      apply List.map_congr_left
      intro s hs
      exact bit_re_neg s (hnz s hs).1
    have e2 : ((syms.map Cplx.neg).drop ((syms.map Cplx.neg).length - n)).map bit_im
        = ((syms.drop (syms.length - n)).map bit_im).map (fun x => !x) := by
      rw [List.length_map, ← List.map_drop, List.map_map, List.map_map]
      apply List.map_congr_left
      intro s hs
      exact bit_im_neg s (hnz s hs).2
    rw [e1, e2, bsequence_correlate_flip, bsequence_correlate_flip,
      bsequence_correlate_flip, bsequence_correlate_flip]
    simp only [Cplx.neg, Option.some.injEq, Cplx.mk.injEq]
    constructor
    · push_cast; ring
    · push_cast; ring

theorem rotation_equivariance_witness :
    ∃ (fs0 fs gs hs : bsync_s) (ys zs ws : List (Option Cplx)) (y : Cplx),
      bsync_create cccf 1 [⟨1, -1⟩] = .ok fs0 ∧
      bsync_correlate_all cccf fs0 [⟨0, 0⟩, ⟨1, 2⟩] = .ok (fs, ys) ∧
      ys.getLast? = some (some y) ∧
      bsync_correlate_all cccf fs0 ([(⟨0, 0⟩ : Cplx), ⟨1, 2⟩].map Cplx.mulI) = .ok (gs, zs) ∧
      zs.getLast? = some (some y.mulI) ∧
      bsync_correlate_all cccf fs0 ([(⟨0, 0⟩ : Cplx), ⟨1, 2⟩].map (fun s => s.mulI.mulI))
        = .ok (hs, ws) ∧
      ws.getLast? = some (some y.neg) ∧
      (∀ s : Cplx, s.mulI.mulI = s.neg) :=
  rotation_equivariance 1 [⟨1, -1⟩] [⟨0, 0⟩, ⟨1, 2⟩] (by decide) rfl (by decide)
    (by simp)

/-! ## Clearing the received rails -/

theorem correlate_rails_ext (cfg : Inst) (fs gs : bsync_s) (sym : Cplx)
    (h1 : fs.n = gs.n) (h2 : fs.sync_i = gs.sync_i) (h3 : fs.sync_q = gs.sync_q)
    (h4 : fs.sym_i = gs.sym_i) (h5 : fs.sym_q = gs.sym_q) :
    bsync_correlate cfg fs sym = bsync_correlate cfg gs sym := by
  obtain ⟨n, si, sq, mi, mq, r⟩ := fs
  obtain ⟨n2, si2, sq2, mi2, mq2, r2⟩ := gs
  simp only at h1 h2 h3 h4 h5
  subst h1 h2 h3 h4 h5
  unfold bsync_correlate bsync_push_symbol
  cases hc : cfg.TI_COMPLEX with
  | false => simp [bsync_dotprod]
  | true =>
    cases mq with
    | none => simp
    | some q => simp [bsync_dotprod]

theorem outputs_rails_ext (cfg : Inst) (fs gs : bsync_s) (syms : List Cplx)
    (h1 : fs.n = gs.n) (h2 : fs.sync_i = gs.sync_i) (h3 : fs.sync_q = gs.sync_q)
    (h4 : fs.sym_i = gs.sym_i) (h5 : fs.sym_q = gs.sym_q) :
    outputs (bsync_correlate_all cfg fs syms) = outputs (bsync_correlate_all cfg gs syms) := by
  cases syms with
  | nil => rfl
  | cons s rest =>
    simp only [bsync_correlate_all, correlate_rails_ext cfg fs gs s h1 h2 h3 h4 h5]

theorem foldl_push_zeros (bs : bsequence) (n : Nat) (h : bs.length = n) :
    List.foldl bsequence_push bs (List.replicate n false) = bsequence_create n :=
  foldl_push_full _ _ (by simp [h])

/-- C11 (as stated, refuted): `bsync.c` offers no reset operation. On the real-real
correlator made from `[1, 1]`, after the symbols `1, 1` the received rail is `[1, 1]`,
and none of the operations defined on a correlator (`destroy`, `print`, `correlate`)
leaves a correlator whose received rail is all-zero. -/
theorem reset_not_offered :
    ∃ (fs0 fs : bsync_s) (ys : List (Option Cplx)),
      bsync_create rrrf 2 [⟨1, 0⟩, ⟨1, 0⟩] = .ok fs0 ∧
      bsync_correlate_all rrrf fs0 [⟨1, 0⟩, ⟨1, 0⟩] = .ok (fs, ys) ∧
      fs.sym_i = [true, true] ∧
      ∀ (op : bsync_op) (fs1 : bsync_s),
        bsync_apply rrrf fs op = .ok (some fs1) → fs1.sym_i ≠ bsequence_create fs1.n := by
  refine ⟨⟨2, [true, true], none, [false, false], none, none⟩,
    ⟨2, [true, true], none, [true, true], none, some ⟨2, 0⟩⟩,
    [some ⟨0, 0⟩, some ⟨1, 0⟩], ?_, ?_, rfl, ?_⟩
  · simp [bsync_create, bsync_create_loop, bsequence_create, bsequence_push, bit_re, rrrf,
      List.replicate]
  · simp [bsync_correlate_all, bsync_correlate, bsync_push_symbol, bsync_dotprod, div_n,
      bsequence_push, bsequence_correlate, bit_re, rrrf]
  · intro op fs1 h
    cases op with
    | destroy => simp [bsync_apply, bsync_destroy, rrrf] at h
    | print =>
      simp only [bsync_apply, bsync_print, Except.ok.injEq, Option.some.injEq] at h
      subst h
      simp [bsequence_create]
    | correlate sym =>
      simp only [bsync_apply, bsync_correlate, bsync_push_symbol, bsync_dotprod, rrrf,
        Bool.false_eq_true, if_false, Bool.false_and, Except.ok.injEq,
        Option.some.injEq] at h
      subst h
      simp [bsequence_create, bsequence_push, List.replicate]

/-- C11 (amended): `bsync.c` defines no reset; on an existing correlator it offers
`destroy`, `print` and `correlate`, and for each of them some reachable state of a
correlator of length 2 is not brought to all-zero received rails. From any state
reached from a fresh correlator of length `n`, `n` calls of `correlate` with a symbol
whose components are not positive set the received rails to the all-zero state of the
fresh correlator and leave `n` and the reference rails unchanged, so that every
correlation returned afterwards is the one a fresh correlator returns for the symbols
pushed since. -/
theorem reset_by_pushes (cfg : Inst) (n : Nat) (v syms t : List Cplx) (z : Cplx)
    (hl : cfg.legal) (hv : v.length = n) (hzr : z.re ≤ 0) (hzi : z.im ≤ 0) :
    (∃ (fs0 fs fs1 : bsync_s) (ys zs : List (Option Cplx)),
      bsync_create cfg n v = .ok fs0 ∧
      bsync_correlate_all cfg fs0 syms = .ok (fs, ys) ∧
      bsync_correlate_all cfg fs (List.replicate n z) = .ok (fs1, zs) ∧
      fs1.n = fs0.n ∧ fs1.sync_i = fs0.sync_i ∧ fs1.sync_q = fs0.sync_q ∧
      fs1.sym_i = bsequence_create n ∧ fs1.sym_i = fs0.sym_i ∧ fs1.sym_q = fs0.sym_q ∧
      outputs (bsync_correlate_all cfg fs1 t) = outputs (bsync_correlate_all cfg fs0 t)) ∧
    (∀ op : bsync_op,
      ∃ (fs0 fs : bsync_s) (ys : List (Option Cplx)),
        bsync_create cfg 2 [⟨1, 1⟩, ⟨1, 1⟩] = .ok fs0 ∧
        bsync_correlate_all cfg fs0 [⟨1, 1⟩, ⟨1, 1⟩] = .ok (fs, ys) ∧
        ∀ fs1 : bsync_s, bsync_apply cfg fs op = .ok (some fs1) →
          fs1.sym_i ≠ bsequence_create fs1.n) := by
  constructor
  · obtain ⟨fs0, hcreate, hp0, hs0, hn0, _, _, hmi0, hmq0, _⟩ :=
      create_present_sized cfg n v (le_of_eq hv.symm)
    obtain ⟨fs, ys, hall, hp, hs, hn1, hsi1, hsq1, _, hmq1, _, _, _⟩ :=
      correlate_all_spec cfg hl syms fs0 hp0
    obtain ⟨fs1, zs, hall2, _, _, hn2, hsi2, hsq2, hmi2, hmq2, _, _, _⟩ :=
      correlate_all_spec cfg hl (List.replicate n z) fs hp
    have hbr : bit_re z = false := by simp [bit_re, not_lt.2 hzr]
    have hbi : bit_im z = false := by simp [bit_im, not_lt.2 hzi]
    have hlen : fs.sym_i.length = n := by rw [(hs hs0).2.1, hn1, hn0]
    have e1 : fs1.sym_i = bsequence_create n := by
      rw [hmi2, List.map_replicate, hbr]
      exact foldl_push_zeros _ n hlen
    have e2 : fs1.sym_q = fs0.sym_q := by
      rw [hmq2, hmq1, hmq0]
      cases hc : cfg.TI_COMPLEX with
      | false => simp
      | true =>
        simp only [if_true, Option.map_some', List.map_replicate, hbi]
        congr 1
        rw [foldl_push_zeros]
        rw [foldl_push_length, bsequence_create_length]
    have e3 : fs1.n = fs0.n := by rw [hn2, hn1]
    have e4 : fs1.sync_i = fs0.sync_i := by rw [hsi2, hsi1]
    have e5 : fs1.sync_q = fs0.sync_q := by rw [hsq2, hsq1]
    have e6 : fs1.sym_i = fs0.sym_i := by rw [e1, hmi0]
    exact ⟨fs0, fs, fs1, ys, zs, hcreate, hall, hall2, e3, e4, e5, e1, e6, e2,
      outputs_rails_ext cfg fs1 fs0 t e3 e4 e5 e6 e2⟩
  · intro op
    obtain ⟨fs0, fs, ys, hcreate, hall, _, hn1, _, _, hmi, _, _, _, _, _, _⟩ :=
      fresh_run_spec cfg hl 2 [⟨1, 1⟩, ⟨1, 1⟩] [⟨1, 1⟩, ⟨1, 1⟩] rfl
    have hmi2 : fs.sym_i = [true, true] := by
      rw [hmi]; simp [bit_re]
    refine ⟨fs0, fs, ys, hcreate, hall, ?_⟩
    intro fs1 h
    cases op with
    | destroy =>
      simp only [bsync_apply] at h
      cases hd : bsync_destroy cfg fs <;> simp [hd] at h
    | print =>
      simp only [bsync_apply, bsync_print, Except.ok.injEq, Option.some.injEq] at h
      subst h
      rw [hmi2, hn1]; simp [bsequence_create, List.replicate]
    | correlate sym =>
      simp only [bsync_apply] at h
      cases hc : bsync_correlate cfg fs sym with
      | error e => simp [hc] at h
      | ok p =>
        obtain ⟨g1, y⟩ := p
        simp only [hc, Except.ok.injEq, Option.some.injEq] at h
        subst h
        obtain ⟨g, r, _, _, rfl, _, hgn, _, _, hgm⟩ := correlate_inv cfg fs _ sym y hc
        show g.sym_i ≠ bsequence_create g.n
        rw [hgm, hgn, hmi2, hn1]
        simp [bsequence_create, bsequence_push, List.replicate]

theorem reset_by_pushes_witness :
    ∃ (fs0 fs fs1 : bsync_s) (ys zs : List (Option Cplx)),
      bsync_create rrrf 2 [⟨1, 0⟩, ⟨-1, 0⟩] = .ok fs0 ∧
      bsync_correlate_all rrrf fs0 [⟨1, 0⟩, ⟨1, 0⟩, ⟨1, 0⟩] = .ok (fs, ys) ∧
      bsync_correlate_all rrrf fs (List.replicate 2 ⟨0, 0⟩) = .ok (fs1, zs) ∧
      fs1.n = fs0.n ∧ fs1.sync_i = fs0.sync_i ∧ fs1.sync_q = fs0.sync_q ∧
      fs1.sym_i = bsequence_create 2 ∧ fs1.sym_i = fs0.sym_i ∧ fs1.sym_q = fs0.sym_q ∧
      outputs (bsync_correlate_all rrrf fs1 [⟨1, 0⟩])
        = outputs (bsync_correlate_all rrrf fs0 [⟨1, 0⟩]) :=
  (reset_by_pushes rrrf 2 [⟨1, 0⟩, ⟨-1, 0⟩] [⟨1, 0⟩, ⟨1, 0⟩, ⟨1, 0⟩] [⟨1, 0⟩] ⟨0, 0⟩
    legal_rrrf rfl (le_refl _) (le_refl _)).1

end Bsync
